import Mathlib

/-!
# Verification of the LaRA edge filter (`src/edge_filter.hpp`)

This file embeds the pairwise Gotoh aligner (`lara::PairwiseGotoh`) and the
edge filter (`lara::generateEdges`) from `src/edge_filter.hpp` and proves the
specified properties: the edge-inclusion rule, the over-approximation
guarantee, margin monotonicity, reversal symmetry of the optimal score,
prefix-score semantics, the frame property of the output grid, sentinel
arithmetic, and the behaviour on degenerate inputs.

Machine integers (`ScoreType`) are modelled as `Int`; the spec requires the
score domain to be wide enough that no accumulation overflows.  The
floating-point identity score is modelled in `ℚ`.
-/

namespace lara

/-- The `seqan::Rna5` alphabet: four bases plus the ambiguity symbol `N`. -/
inductive Rna5 : Type where
  | A | C | G | U | N
deriving DecidableEq, Repr, Fintype

/-- Modelled from the spec: the score configuration consumed by the aligner.
`sub` is the substitution lookup `seqan::score(score, x, y)` of the external
`SeqScoreMatrix`; `data_gap_open` and `data_gap_extend` are its two scalar
penalties; `inf` is the magnitude of the "negative infinity" sentinel
(`lara::infinity` of `data_types.hpp`, not part of the sources), required by
the spec to be strictly below every attainable real score. -/
structure Config where
  sub : Rna5 → Rna5 → Int
  data_gap_open : Int
  data_gap_extend : Int
  inf : Int

/-- One cell of the three DP tables: entries of `matrixM`, `matrixH`,
`matrixV` at a common index. -/
structure Cell where
  m : Int
  h : Int
  v : Int
deriving Repr

/-- `std::max` over a three-element initializer list. -/
def max3 (x y z : Int) : Int := max (max x y) z

/-- Boundary gap score `go + ge * k` (source lines 87–96). -/
def gapScore (cfg : Config) (k : Nat) : Int :=
  cfg.data_gap_open + cfg.data_gap_extend * (k : Int)

/-- Row 0 of the DP tables (source lines 80–82 and 92–97):
cell (0,0) is `(0, -infinity, -infinity)`; cell (0,b+1) is
`(go + ge*b, go + ge*b, -infinity)`. -/
def row0 (cfg : Config) : Nat → Cell
  | 0 => ⟨0, -cfg.inf, -cfg.inf⟩
  | b + 1 => ⟨gapScore cfg b, gapScore cfg b, -cfg.inf⟩

/-- Fill of one DP row `a+1` (source lines 100–116), given the character
`x = seqA[a]`, the previous row `prev` and the boundary cell for column 0
(source lines 85–90).  Column `b+1` combines the diagonal cell `prev b`,
the left cell (same row, column `b`) and the upper cell `prev (b+1)`. -/
def nextRow (cfg : Config) (x : Rna5) (B : List Rna5) (prev : Nat → Cell)
    (edge : Cell) : Nat → Cell
  | 0 => edge
  | b + 1 =>
    let d := prev b
    let l := nextRow cfg x B prev edge b
    let u := prev (b + 1)
    ⟨max3 d.m d.h d.v + cfg.sub x (B.getD b Rna5.N),
     max3 (l.m + cfg.data_gap_open) (l.h + cfg.data_gap_extend)
          (l.v + cfg.data_gap_open),
     max3 (u.m + cfg.data_gap_open) (u.h + cfg.data_gap_open)
          (u.v + cfg.data_gap_extend)⟩

/-- The three DP tables of `PairwiseGotoh(seqA, seqB, score)`, row by row:
`gotoh cfg A B a b` is the triple `(matrixM, matrixH, matrixV)` at index
`(a, b)`.  Row `a+1` starts with the boundary cell
`(go + ge*a, -infinity, go + ge*a)` (source lines 85–90). -/
def gotoh (cfg : Config) (A B : List Rna5) : Nat → Nat → Cell
  | 0 => row0 cfg
  | a + 1 =>
    nextRow cfg (A.getD a Rna5.N) B (gotoh cfg A B a)
      ⟨gapScore cfg a, -cfg.inf, gapScore cfg a⟩

/-- `PairwiseGotoh::getPrefixScore(posA, posB)` (source lines 119–123):
the maximum of the three table entries at `(posA, posB)`. -/
def getPrefixScore (cfg : Config) (A B : List Rna5) (posA posB : Nat) : Int :=
  max3 (gotoh cfg A B posA posB).m (gotoh cfg A B posA posB).h
       (gotoh cfg A B posA posB).v

/-- `PairwiseGotoh::getOptimalScore()` (source lines 125–128). -/
def getOptimalScore (cfg : Config) (A B : List Rna5) : Int :=
  getPrefixScore cfg A B A.length B.length

/-- The filter condition of `generateEdges` (source lines 148–151):
`forward.getPrefixScore(a, b) + score(seqA[a], seqB[b])
 + backward.getPrefixScore(lenA - a - 1, lenB - b - 1) >= threshold`
with `threshold = forward.getOptimalScore() - suboptimalDiff`. -/
def edgeCond (cfg : Config) (A B : List Rna5) (suboptimalDiff : Int)
    (a b : Nat) : Bool :=
  decide (getOptimalScore cfg A B - suboptimalDiff ≤
    getPrefixScore cfg A B a b
    + cfg.sub (A.getD a Rna5.N) (B.getD b Rna5.N)
    + getPrefixScore cfg A.reverse B.reverse
        (A.length - a - 1) (B.length - b - 1))

/-- The index pairs visited by the two nested loops of `generateEdges`
(source lines 146–147), in row-major order. -/
def allPairs (lenA lenB : Nat) : List (Nat × Nat) :=
  (List.range lenA).flatMap fun a => (List.range lenB).map fun b => (a, b)

/-- Result of `generateEdges`: the caller's `std::vector<bool>` after the
call (modelled as a function from flat indices to `Bool`) and the returned
identity score. -/
structure EdgeResult where
  edges : Nat → Bool
  identity : ℚ

/-- `lara::generateEdges` (source lines 131–158).  The loops set
`edges[lenB * a + b] = true` exactly when the filter condition holds; the
return value is `forward.getOptimalScore() / factor2int / max(lenA, lenB)`.
The scale constant `factor2int` (from `score.hpp`, not part of the sources)
is modelled from the spec as an abstract parameter, and the floating-point
quotient is modelled in `ℚ`. -/
def generateEdges (cfg : Config) (A B : List Rna5) (suboptimalDiff : Int)
    (edges0 : Nat → Bool) (factor2int : ℚ) : EdgeResult :=
  let lenA := A.length
  let lenB := B.length
  { edges :=
      (allPairs lenA lenB).foldl
        (fun e p =>
          if edgeCond cfg A B suboptimalDiff p.1 p.2 then
            fun j => if j = lenB * p.1 + p.2 then true else e j
          else e)
        edges0,
    identity := ((getOptimalScore cfg A B : Int) : ℚ) / factor2int
                / ((max lenA lenB : Nat) : ℚ) }

/-! ## Alignment semantics

To state what the DP tables mean, we give global alignments a semantics.
An alignment is a list of columns: a match/mismatch column consumes one
symbol of each sequence, a horizontal-gap column consumes one symbol of `B`
(gap in `A`), a vertical-gap column consumes one symbol of `A` (gap in `B`).
A gap column is charged `gap_open` when it starts a gap run in its own
table and `gap_extend` when it extends one, exactly as in the DP fill. -/

/-- One column of a pairwise alignment. -/
inductive Col : Type where
  | mat : Rna5 → Rna5 → Col
  | hor : Rna5 → Col
  | ver : Rna5 → Col
deriving DecidableEq, Repr

/-- The three DP states. -/
inductive St : Type where
  | m | h | v
deriving DecidableEq, Repr

/-- The state a column ends in. -/
def Col.kind : Col → St
  | mat _ _ => St.m
  | hor _ => St.h
  | ver _ => St.v

/-- Symbols a column consumes from sequence `A`. -/
def colA : Col → List Rna5
  | Col.mat x _ => [x]
  | Col.hor _ => []
  | Col.ver x => [x]

/-- Symbols a column consumes from sequence `B`. -/
def colB : Col → List Rna5
  | Col.mat _ y => [y]
  | Col.hor y => [y]
  | Col.ver _ => []

/-- The part of `A` an alignment consumes. -/
def projA (aln : List Col) : List Rna5 := aln.flatMap colA

/-- The part of `B` an alignment consumes. -/
def projB (aln : List Col) : List Rna5 := aln.flatMap colB

/-- Kind of the first column, if any. -/
def headKind : List Col → Option St
  | [] => none
  | c :: _ => some c.kind

/-- Kind of the last column, if any. -/
def lastKind (aln : List Col) : Option St := headKind aln.reverse

/-- Cost of one column given the kind of the column preceding it: a
substitution scores `sub`; a gap column scores `gap_extend` when the
previous column is a gap of the same orientation and `gap_open` otherwise
(the model of the three-state recurrence, source lines 104–114). -/
def colCost (cfg : Config) (prev : Option St) : Col → Int
  | Col.mat x y => cfg.sub x y
  | Col.hor _ =>
    if prev = some St.h then cfg.data_gap_extend else cfg.data_gap_open
  | Col.ver _ =>
    if prev = some St.v then cfg.data_gap_extend else cfg.data_gap_open

/-- Score of an alignment given with its last column first. -/
def scoreRev (cfg : Config) : List Col → Int
  | [] => 0
  | c :: rest => colCost cfg (headKind rest) c + scoreRev cfg rest

/-- Affine-gap score of an alignment. -/
def score (cfg : Config) (aln : List Col) : Int := scoreRev cfg aln.reverse

/-- `aln` aligns the prefixes `A[0:a]` and `B[0:b]`. -/
def SpellsPre (A B : List Rna5) (a b : Nat) (aln : List Col) : Prop :=
  projA aln = A.take a ∧ projB aln = B.take b

/-- `aln` is a full alignment of `A` and `B`. -/
def Spells (A B : List Rna5) (aln : List Col) : Prop :=
  projA aln = A ∧ projB aln = B

/-- Cost of a column ignoring gap runs (every gap opens). -/
def baseCost (cfg : Config) : Col → Int
  | Col.mat x y => cfg.sub x y
  | Col.hor _ => cfg.data_gap_open
  | Col.ver _ => cfg.data_gap_open

/-- Sum of the run-free column costs. -/
def baseSum (cfg : Config) (l : List Col) : Int := (l.map (baseCost cfg)).sum

/-- Two adjacent columns forming one gap run. -/
def gapPair (c d : Col) : Bool := c.kind = d.kind && decide (c.kind ≠ St.m)

/-- Number of adjacent column pairs lying in a common gap run. -/
def adjSame : List Col → Int
  | [] => 0
  | [_] => 0
  | c :: d :: rest => (if gapPair c d then 1 else 0) + adjSame (d :: rest)

/-- Table entry selected by a state. -/
def stTable (c : Cell) : Option St → Int
  | some St.m => c.m
  | some St.h => c.h
  | some St.v => c.v
  | none => c.m

/-- The concrete configuration of the C8 scenario: substitution +2 for a
match, −1 for a mismatch, gap open −4, gap extend −1. -/
def cfg8 : Config :=
  { sub := fun x y => if x = y then 2 else -1
    data_gap_open := -4
    data_gap_extend := -1
    inf := 1000000 }

/-- The sequence "AAAA". -/
def seqAAAA : List Rna5 := [Rna5.A, Rna5.A, Rna5.A, Rna5.A]

/-! ## The edge loop: characterization of the written cells -/

theorem mem_allPairs {lenA lenB : Nat} {p : Nat × Nat} :
    p ∈ allPairs lenA lenB ↔ p.1 < lenA ∧ p.2 < lenB := by
  cases p with
  | mk a b =>
    simp only [allPairs, List.mem_flatMap, List.mem_map, List.mem_range]
    constructor
    · rintro ⟨a', ha', b', hb', h⟩
      cases h
      exact ⟨ha', hb'⟩
    · rintro ⟨ha, hb⟩
      exact ⟨a, ha, b, hb, rfl⟩

theorem foldl_setTrue_get (cond : Nat × Nat → Bool) (idx : Nat × Nat → Nat) :
    ∀ (ps : List (Nat × Nat)) (e : Nat → Bool) (j : Nat),
      (ps.foldl
        (fun e p => if cond p then (fun j' => if j' = idx p then true else e j')
                    else e) e) j
      = (e j || ps.any fun p => cond p && decide (idx p = j)) := by
  intro ps
  induction ps with
  | nil => intro e j; simp
  | cons p ps ih =>
    intro e j
    rw [List.foldl_cons, List.any_cons, ih]
    by_cases hc : cond p = true
    · by_cases hj : j = idx p
      · subst hj; simp [hc]
      · have hj' : ¬ (idx p = j) := fun h => hj h.symm
        simp [hc, hj, hj']
    · simp [Bool.eq_false_iff.mpr hc]

theorem generateEdges_edges_iff (cfg : Config) (A B : List Rna5)
    (suboptimalDiff : Int) (edges0 : Nat → Bool) (factor2int : ℚ) (j : Nat) :
    (generateEdges cfg A B suboptimalDiff edges0 factor2int).edges j = true ↔
      (edges0 j = true ∨ ∃ a, a < A.length ∧ ∃ b, b < B.length ∧
        j = B.length * a + b ∧ edgeCond cfg A B suboptimalDiff a b = true) := by
  show ((allPairs A.length B.length).foldl _ edges0) j = true ↔ _
  rw [foldl_setTrue_get (fun p => edgeCond cfg A B suboptimalDiff p.1 p.2)
      (fun p => B.length * p.1 + p.2)]
  rw [Bool.or_eq_true, List.any_eq_true]
  constructor
  · rintro (h | ⟨p, hp, hcond⟩)
    · exact Or.inl h
    · rw [Bool.and_eq_true, decide_eq_true_eq] at hcond
      rw [mem_allPairs] at hp
      exact Or.inr ⟨p.1, hp.1, p.2, hp.2, hcond.2.symm, hcond.1⟩
  · rintro (h | ⟨a, ha, b, hb, hj, hcond⟩)
    · exact Or.inl h
    · refine Or.inr ⟨(a, b), mem_allPairs.mpr ⟨ha, hb⟩, ?_⟩
      rw [Bool.and_eq_true, decide_eq_true_eq]
      exact ⟨hcond, hj.symm⟩

/-- Uniqueness of the flat index: with `b, b' < lenB` the index
`lenB * a + b` determines `a` and `b`. -/
theorem flat_index_inj {lenB a b a' b' : Nat} (hb : b < lenB) (hb' : b' < lenB)
    (h : lenB * a' + b' = lenB * a + b) : a' = a ∧ b' = b := by
  have hpos : 0 < lenB := by omega
  have h1 : (lenB * a' + b') / lenB = a' := by
    rw [Nat.mul_add_div hpos, Nat.div_eq_of_lt hb']
    omega
  have h2 : (lenB * a + b) / lenB = a := by
    rw [Nat.mul_add_div hpos, Nat.div_eq_of_lt hb]
    omega
  have ha : a' = a := by rw [← h1, ← h2, h]
  subst ha
  exact ⟨rfl, by omega⟩

/-- C2: Edge-inclusion rule.  Starting from the all-false `EdgeSet`,
`generateEdges` sets the cell of a pair `(a, b)` (flat index `lenB*a + b`)
to `true` if and only if
`forward.getPrefixScore(a,b) + substitution(A[a],B[b])
 + backward.getPrefixScore(lenA-a-1, lenB-b-1)
 ≥ forward.getOptimalScore() - suboptimalMargin`. -/
theorem edge_inclusion_rule (cfg : Config) (A B : List Rna5)
    (suboptimalDiff : Int) (edges0 : Nat → Bool) (factor2int : ℚ)
    (hinit : ∀ i, edges0 i = false) (a b : Nat)
    (ha : a < A.length) (hb : b < B.length) :
    (generateEdges cfg A B suboptimalDiff edges0 factor2int).edges
        (B.length * a + b) = true ↔
      getOptimalScore cfg A B - suboptimalDiff ≤
        getPrefixScore cfg A B a b
        + cfg.sub (A.getD a Rna5.N) (B.getD b Rna5.N)
        + getPrefixScore cfg A.reverse B.reverse
            (A.length - a - 1) (B.length - b - 1) := by
  rw [generateEdges_edges_iff]
  constructor
  · rintro (h | ⟨a', ha', b', hb', hj, hcond⟩)
    · rw [hinit] at h; exact absurd h (by simp)
    · obtain ⟨hae, hbe⟩ := flat_index_inj hb hb' hj.symm
      subst hae; subst hbe
      exact of_decide_eq_true hcond
  · intro h
    exact Or.inr ⟨a, ha, b, hb, rfl, decide_eq_true h⟩

/-- C5: Margin monotonicity.  For margins `m1 < m2`, every edge cell set by
`generateEdges` with margin `m1` is also set with margin `m2`. -/
theorem margin_monotone (cfg : Config) (A B : List Rna5) (m1 m2 : Int)
    (edges0 : Nat → Bool) (factor2int : ℚ) (hm : m1 < m2) (j : Nat)
    (hj : (generateEdges cfg A B m1 edges0 factor2int).edges j = true) :
    (generateEdges cfg A B m2 edges0 factor2int).edges j = true := by
  rw [generateEdges_edges_iff] at hj ⊢
  rcases hj with h | ⟨a, ha, b, hb, hij, hcond⟩
  · exact Or.inl h
  · refine Or.inr ⟨a, ha, b, hb, hij, ?_⟩
    rw [edgeCond, decide_eq_true_eq] at hcond ⊢
    omega

/-- C9: Frame property.  `generateEdges` never clears a cell: cells that
were `true` on entry stay `true`; any changed cell was `false`, is now
`true`, and its index has the form `lenB*a + b` with `a < lenA`,
`b < lenB`; hence at most `lenA * lenB` cells change. -/
theorem frame_property (cfg : Config) (A B : List Rna5)
    (suboptimalDiff : Int) (edges0 : Nat → Bool) (factor2int : ℚ) :
    (∀ i, edges0 i = true →
      (generateEdges cfg A B suboptimalDiff edges0 factor2int).edges i = true) ∧
    (∀ i, (generateEdges cfg A B suboptimalDiff edges0 factor2int).edges i
            ≠ edges0 i →
      edges0 i = false ∧
      (generateEdges cfg A B suboptimalDiff edges0 factor2int).edges i = true ∧
      ∃ a, a < A.length ∧ ∃ b, b < B.length ∧ i = B.length * a + b) ∧
    ((Finset.range (A.length * B.length)).filter
        (fun i => (generateEdges cfg A B suboptimalDiff edges0 factor2int).edges i
          ≠ edges0 i)).card ≤ A.length * B.length := by
  refine ⟨?_, ?_, ?_⟩
  · intro i hi
    rw [generateEdges_edges_iff]
    exact Or.inl hi
  · intro i hi
    by_cases h0 : edges0 i = true
    · exact absurd (((generateEdges_edges_iff cfg A B suboptimalDiff edges0
        factor2int i).mpr (Or.inl h0)).trans h0.symm) hi
    · have h0' : edges0 i = false := Bool.eq_false_iff.mpr h0
      have hres : (generateEdges cfg A B suboptimalDiff edges0 factor2int).edges i
          = true := by
        rcases hr : (generateEdges cfg A B suboptimalDiff edges0 factor2int).edges i
        · exact absurd (hr.trans h0'.symm) hi
        · rfl
      obtain h | ⟨a, ha, b, hb, hj, _⟩ :=
        (generateEdges_edges_iff cfg A B suboptimalDiff edges0 factor2int i).mp hres
      · exact absurd h h0
      · exact ⟨h0', hres, a, ha, b, hb, hj⟩
  · calc ((Finset.range (A.length * B.length)).filter _).card
        ≤ (Finset.range (A.length * B.length)).card := Finset.card_filter_le _ _
      _ = A.length * B.length := Finset.card_range _

/-- C6: Degenerate input.  If either sequence is empty, no cell of the
all-false `EdgeSet` is set and the identity score is the well-defined value
`optimalScore / factor2int / max(lenA, lenB)`. -/
theorem degenerate_input (cfg : Config) (A B : List Rna5)
    (suboptimalDiff : Int) (edges0 : Nat → Bool) (factor2int : ℚ)
    (h : A.length = 0 ∨ B.length = 0) (hinit : ∀ i, edges0 i = false) :
    (∀ i, (generateEdges cfg A B suboptimalDiff edges0 factor2int).edges i
      = false) ∧
    (generateEdges cfg A B suboptimalDiff edges0 factor2int).identity
      = ((getOptimalScore cfg A B : Int) : ℚ) / factor2int
        / ((max A.length B.length : Nat) : ℚ) := by
  refine ⟨?_, rfl⟩
  intro i
  rcases hr : (generateEdges cfg A B suboptimalDiff edges0 factor2int).edges i
  · rfl
  · obtain hcontra | ⟨a, ha, b, hb, _, _⟩ :=
      (generateEdges_edges_iff cfg A B suboptimalDiff edges0 factor2int i).mp hr
    · rw [hinit] at hcontra; exact absurd hcontra (by simp)
    · omega

/-- Witness for C2 at a concrete input. -/
theorem edge_inclusion_rule_witness :
    0 < 1 ∧
    ((generateEdges cfg8 [Rna5.A] [Rna5.A] 0 (fun _ => false) 1).edges
        (List.length [Rna5.A] * 0 + 0) = true ↔
      getOptimalScore cfg8 [Rna5.A] [Rna5.A] - 0 ≤
        getPrefixScore cfg8 [Rna5.A] [Rna5.A] 0 0
        + cfg8.sub ([Rna5.A].getD 0 Rna5.N) ([Rna5.A].getD 0 Rna5.N)
        + getPrefixScore cfg8 [Rna5.A].reverse [Rna5.A].reverse
            (List.length [Rna5.A] - 0 - 1) (List.length [Rna5.A] - 0 - 1)) :=
  ⟨Nat.zero_lt_one,
    edge_inclusion_rule cfg8 [Rna5.A] [Rna5.A] 0 (fun _ => false) 1
      (fun _ => rfl) 0 0 Nat.zero_lt_one Nat.zero_lt_one⟩

/-- Witness for C5 at a concrete input. -/
theorem margin_monotone_witness :
    (0 : Int) < 1 ∧
    (generateEdges cfg8 [Rna5.A] [Rna5.A] 1 (fun _ => false) 1).edges 0
      = true :=
  ⟨by decide,
    margin_monotone cfg8 [Rna5.A] [Rna5.A] 0 1 (fun _ => false) 1
      (by decide) 0 (by decide)⟩

/-- Witness for C6 at a concrete input. -/
theorem degenerate_input_witness :
    ((List.nil : List Rna5).length = 0 ∨ ([Rna5.A] : List Rna5).length = 0) ∧
    (generateEdges cfg8 [] [Rna5.A] 0 (fun _ => false) 1).edges 0 = false ∧
    (generateEdges cfg8 [] [Rna5.A] 0 (fun _ => false) 1).identity
      = ((getOptimalScore cfg8 [] [Rna5.A] : Int) : ℚ) / 1
        / ((max (List.nil : List Rna5).length [Rna5.A].length : Nat) : ℚ) :=
  ⟨Or.inl rfl,
    (degenerate_input cfg8 [] [Rna5.A] 0 (fun _ => false) 1 (Or.inl rfl)
      (fun _ => rfl)).1 0,
    (degenerate_input cfg8 [] [Rna5.A] 0 (fun _ => false) 1 (Or.inl rfl)
      (fun _ => rfl)).2⟩

/-- C8: Concrete scenario.  With `seqA = seqB = "AAAA"`, match +2,
mismatch −1, gap open −4, gap extend −1 and margin 0: the optimal score is
8, the four diagonal edges are set, and the identity score is
`8 / factor2int / 4`. -/
theorem concrete_scenario (factor2int : ℚ) :
    getOptimalScore cfg8 seqAAAA seqAAAA = 8 ∧
    (generateEdges cfg8 seqAAAA seqAAAA 0 (fun _ => false) factor2int).edges
        (4 * 0 + 0) = true ∧
    (generateEdges cfg8 seqAAAA seqAAAA 0 (fun _ => false) factor2int).edges
        (4 * 1 + 1) = true ∧
    (generateEdges cfg8 seqAAAA seqAAAA 0 (fun _ => false) factor2int).edges
        (4 * 2 + 2) = true ∧
    (generateEdges cfg8 seqAAAA seqAAAA 0 (fun _ => false) factor2int).edges
        (4 * 3 + 3) = true ∧
    (generateEdges cfg8 seqAAAA seqAAAA 0 (fun _ => false) factor2int).identity
      = 8 / factor2int / 4 := by
  have hE : (generateEdges cfg8 seqAAAA seqAAAA 0 (fun _ => false)
        factor2int).edges
      = (generateEdges cfg8 seqAAAA seqAAAA 0 (fun _ => false) 1).edges := rfl
  rw [hE]
  refine ⟨by decide, by decide, by decide, by decide, by decide, ?_⟩
  show ((getOptimalScore cfg8 seqAAAA seqAAAA : Int) : ℚ) / factor2int
      / ((max seqAAAA.length seqAAAA.length : Nat) : ℚ) = 8 / factor2int / 4
  rw [show getOptimalScore cfg8 seqAAAA seqAAAA = 8 from by decide]
  norm_num [seqAAAA]

/-! ## Basic facts about alignment scores -/

theorem projA_append (u v : List Col) : projA (u ++ v) = projA u ++ projA v :=
  List.flatMap_append u v colA

theorem projB_append (u v : List Col) : projB (u ++ v) = projB u ++ projB v :=
  List.flatMap_append u v colB

theorem colA_reverse (c : Col) : (colA c).reverse = colA c := by
  cases c <;> rfl

theorem colB_reverse (c : Col) : (colB c).reverse = colB c := by
  cases c <;> rfl

theorem projA_reverse (aln : List Col) : projA aln.reverse = (projA aln).reverse := by
  show aln.reverse.flatMap colA = (aln.flatMap colA).reverse
  rw [List.reverse_flatMap]
  exact List.flatMap_congr fun c _ => (colA_reverse c).symm

theorem projB_reverse (aln : List Col) : projB aln.reverse = (projB aln).reverse := by
  show aln.reverse.flatMap colB = (aln.flatMap colB).reverse
  rw [List.reverse_flatMap]
  exact List.flatMap_congr fun c _ => (colB_reverse c).symm

theorem colCost_mat (cfg : Config) (prev : Option St) (x y : Rna5) :
    colCost cfg prev (Col.mat x y) = cfg.sub x y := rfl

theorem colCost_some_m (cfg : Config) (c : Col) :
    colCost cfg (some St.m) c = colCost cfg none c := by
  cases c <;> rfl

theorem headKind_append_cons (u : List Col) (c : Col) (w : List Col) :
    headKind (u ++ c :: w) = headKind (u ++ [c]) := by
  cases u <;> rfl

theorem lastKind_eq_none_iff (l : List Col) : lastKind l = none ↔ l = [] := by
  cases l using List.reverseRecOn with
  | nil => simp [lastKind, headKind]
  | append_singleton u c _ =>
    simp only [lastKind, List.reverse_append, List.reverse_cons, List.reverse_nil,
      List.nil_append, List.cons_append, headKind]
    constructor
    · intro h; exact absurd h (by simp)
    · intro h; exact absurd h (by simp)

theorem lastKind_append_single (l : List Col) (c : Col) :
    lastKind (l ++ [c]) = some c.kind := by
  simp [lastKind, headKind]

/-- Appending one mat column at the bottom of a reversed alignment. -/
theorem scoreRev_append_mat (cfg : Config) (x y : Rna5) :
    ∀ u : List Col,
      scoreRev cfg (u ++ [Col.mat x y]) = scoreRev cfg u + cfg.sub x y := by
  intro u
  induction u with
  | nil => simp [scoreRev, colCost, headKind]
  | cons c u ih =>
    rw [List.cons_append, scoreRev, scoreRev, ih]
    have hk : colCost cfg (headKind (u ++ [Col.mat x y])) c
        = colCost cfg (headKind u) c := by
      cases u with
      | nil => exact colCost_some_m cfg c
      | cons d u' => rfl
    rw [hk]; ring

/-- Splitting a reversed alignment at a mat column. -/
theorem scoreRev_split_mat (cfg : Config) (x y : Rna5) (w : List Col) :
    ∀ u : List Col,
      scoreRev cfg (u ++ Col.mat x y :: w)
        = scoreRev cfg (u ++ [Col.mat x y]) + scoreRev cfg w := by
  intro u
  induction u with
  | nil =>
    show colCost cfg (headKind w) (Col.mat x y) + scoreRev cfg w = _
    rw [colCost_mat]
    show cfg.sub x y + scoreRev cfg w
        = colCost cfg (headKind []) (Col.mat x y) + scoreRev cfg [] + scoreRev cfg w
    rw [colCost_mat]; simp [scoreRev]
  | cons c u ih =>
    rw [List.cons_append, scoreRev, ih, List.cons_append, scoreRev,
      headKind_append_cons]
    ring

theorem score_nil (cfg : Config) : score cfg [] = 0 := rfl

theorem score_append_single (cfg : Config) (l : List Col) (c : Col) :
    score cfg (l ++ [c]) = score cfg l + colCost cfg (lastKind l) c := by
  show scoreRev cfg (l ++ [c]).reverse = _
  rw [List.reverse_append]
  show scoreRev cfg (c :: l.reverse) = _
  rw [scoreRev]
  show colCost cfg (headKind l.reverse) c + scoreRev cfg l.reverse = _
  rw [lastKind]
  simp only [score]
  ring

/-- An alignment splits at a mat column into two independently scored
parts: affine-gap runs never cross a match/mismatch column. -/
theorem score_split_mat (cfg : Config) (l : List Col) (x y : Rna5)
    (r : List Col) :
    score cfg (l ++ Col.mat x y :: r)
      = score cfg l + cfg.sub x y + score cfg r := by
  show scoreRev cfg (l ++ Col.mat x y :: r).reverse = _
  rw [List.reverse_append, List.reverse_cons]
  rw [show r.reverse ++ [Col.mat x y] ++ l.reverse
      = r.reverse ++ Col.mat x y :: l.reverse by simp]
  rw [scoreRev_split_mat, scoreRev_append_mat]
  show scoreRev cfg r.reverse + cfg.sub x y + scoreRev cfg l.reverse = _
  simp only [score]
  ring

theorem scoreRev_eq_baseSum_add (cfg : Config) :
    ∀ l : List Col,
      scoreRev cfg l = baseSum cfg l
        + (cfg.data_gap_extend - cfg.data_gap_open) * adjSame l := by
  intro l
  induction l with
  | nil => simp [scoreRev, baseSum, adjSame]
  | cons c l ih =>
    cases l with
    | nil =>
      have hc : colCost cfg none c = baseCost cfg c := by cases c <;> rfl
      simp [scoreRev, headKind, hc, baseSum, adjSame]
    | cons d rest =>
      rw [scoreRev, ih]
      have hc : colCost cfg (headKind (d :: rest)) c
          = baseCost cfg c + (if gapPair c d then
              cfg.data_gap_extend - cfg.data_gap_open else 0) := by
        show colCost cfg (some d.kind) c = _
        cases c with
        | mat x y => simp [colCost, baseCost, gapPair, Col.kind]
        | hor z =>
          cases d <;> simp [colCost, baseCost, gapPair, Col.kind]
        | ver z =>
          cases d <;> simp [colCost, baseCost, gapPair, Col.kind]
      rw [hc]
      show _ = baseSum cfg (c :: d :: rest)
        + (cfg.data_gap_extend - cfg.data_gap_open)
          * ((if gapPair c d then 1 else 0) + adjSame (d :: rest))
      have hb : baseSum cfg (c :: d :: rest)
          = baseCost cfg c + baseSum cfg (d :: rest) := by
        simp [baseSum]
      rw [hb]
      by_cases hg : gapPair c d <;> simp [hg] <;> ring

theorem baseSum_reverse (cfg : Config) (l : List Col) :
    baseSum cfg l.reverse = baseSum cfg l := by
  show (l.reverse.map (baseCost cfg)).sum = (l.map (baseCost cfg)).sum
  rw [List.map_reverse, List.sum_reverse]

theorem gapPair_symm (c d : Col) : gapPair c d = gapPair d c := by
  cases c <;> cases d <;> rfl

theorem adjSame_append_single (c : Col) :
    ∀ l : List Col, adjSame (l ++ [c])
      = adjSame l + (match l.getLast? with
        | none => 0
        | some d => if gapPair d c then 1 else 0) := by
  intro l
  induction l with
  | nil => simp [adjSame]
  | cons d l ih =>
    cases l with
    | nil => simp [adjSame]
    | cons e rest =>
      rw [List.cons_append, List.cons_append]
      show (if gapPair d e then 1 else 0) + adjSame (e :: (rest ++ [c])) = _
      rw [show e :: (rest ++ [c]) = (e :: rest) ++ [c] from rfl, ih]
      show _ = (if gapPair d e then 1 else 0) + adjSame (e :: rest) + _
      rw [List.getLast?_cons_cons]
      ring

theorem adjSame_reverse : ∀ l : List Col, adjSame l.reverse = adjSame l := by
  intro l
  induction l with
  | nil => rfl
  | cons c l ih =>
    rw [List.reverse_cons, adjSame_append_single, ih, List.getLast?_reverse]
    cases l with
    | nil => rfl
    | cons d rest =>
      show adjSame (d :: rest) + (if gapPair d c then 1 else 0)
        = adjSame (c :: d :: rest)
      rw [show adjSame (c :: d :: rest)
          = (if gapPair c d then 1 else 0) + adjSame (d :: rest) from rfl,
        gapPair_symm d c]
      ring

/-- The affine-gap score is invariant under reversal of the alignment. -/
theorem score_reverse (cfg : Config) (aln : List Col) :
    score cfg aln.reverse = score cfg aln := by
  show scoreRev cfg aln.reverse.reverse = scoreRev cfg aln.reverse
  rw [List.reverse_reverse, scoreRev_eq_baseSum_add, scoreRev_eq_baseSum_add,
    baseSum_reverse, adjSame_reverse]

/-! ## DP recurrence, restated -/

theorem gotoh_zero_zero (cfg : Config) (A B : List Rna5) :
    gotoh cfg A B 0 0 = ⟨0, -cfg.inf, -cfg.inf⟩ := rfl

theorem gotoh_succ_zero (cfg : Config) (A B : List Rna5) (a : Nat) :
    gotoh cfg A B (a + 1) 0 = ⟨gapScore cfg a, -cfg.inf, gapScore cfg a⟩ := rfl

theorem gotoh_zero_succ (cfg : Config) (A B : List Rna5) (b : Nat) :
    gotoh cfg A B 0 (b + 1) = ⟨gapScore cfg b, gapScore cfg b, -cfg.inf⟩ := rfl

theorem gotoh_succ_succ (cfg : Config) (A B : List Rna5) (a b : Nat) :
    gotoh cfg A B (a + 1) (b + 1) =
      ⟨max3 (gotoh cfg A B a b).m (gotoh cfg A B a b).h (gotoh cfg A B a b).v
          + cfg.sub (A.getD a Rna5.N) (B.getD b Rna5.N),
       max3 ((gotoh cfg A B (a + 1) b).m + cfg.data_gap_open)
            ((gotoh cfg A B (a + 1) b).h + cfg.data_gap_extend)
            ((gotoh cfg A B (a + 1) b).v + cfg.data_gap_open),
       max3 ((gotoh cfg A B a (b + 1)).m + cfg.data_gap_open)
            ((gotoh cfg A B a (b + 1)).h + cfg.data_gap_open)
            ((gotoh cfg A B a (b + 1)).v + cfg.data_gap_extend)⟩ := rfl

theorem le_max3_left (x y z : Int) : x ≤ max3 x y z :=
  le_trans (le_max_left x y) (le_max_left _ z)

theorem le_max3_mid (x y z : Int) : y ≤ max3 x y z :=
  le_trans (le_max_right x y) (le_max_left _ z)

theorem le_max3_right (x y z : Int) : z ≤ max3 x y z :=
  le_max_right _ z

theorem max3_cases (x y z : Int) :
    max3 x y z = x ∨ max3 x y z = y ∨ max3 x y z = z := by
  unfold max3
  rcases max_choice (max x y) z with h | h
  · rw [h]
    rcases max_choice x y with h2 | h2
    · exact Or.inl h2
    · exact Or.inr (Or.inl h2)
  · exact Or.inr (Or.inr h)

theorem stTable_le_max3 (c : Cell) (k : Option St) :
    stTable c k ≤ max3 c.m c.h c.v := by
  cases k with
  | none => exact le_max3_left _ _ _
  | some s => cases s with
    | m => exact le_max3_left _ _ _
    | h => exact le_max3_mid _ _ _
    | v => exact le_max3_right _ _ _

/-! ## Gap-only alignments -/

theorem projA_eq_nil (aln : List Col) (h : projA aln = []) :
    ∀ c ∈ aln, ∃ y, c = Col.hor y := by
  intro c hc
  have hn := List.flatMap_eq_nil_iff.mp h c hc
  cases c with
  | mat x y => exact absurd hn (by simp [colA])
  | hor y => exact ⟨y, rfl⟩
  | ver x => exact absurd hn (by simp [colA])

theorem projB_eq_nil (aln : List Col) (h : projB aln = []) :
    ∀ c ∈ aln, ∃ x, c = Col.ver x := by
  intro c hc
  have hn := List.flatMap_eq_nil_iff.mp h c hc
  cases c with
  | mat x y => exact absurd hn (by simp [colB])
  | hor y => exact absurd hn (by simp [colB])
  | ver x => exact ⟨x, rfl⟩

theorem scoreRev_all_hor (cfg : Config) :
    ∀ l : List Col, (∀ c ∈ l, ∃ y, c = Col.hor y) → l ≠ [] →
      scoreRev cfg l = gapScore cfg (l.length - 1) := by
  intro l
  induction l with
  | nil => intro _ hne; exact absurd rfl hne
  | cons c rest ih =>
    intro hall _
    obtain ⟨y, rfl⟩ := hall c (List.mem_cons_self _ _)
    cases rest with
    | nil =>
      show colCost cfg (headKind []) (Col.hor y) + 0 = gapScore cfg 0
      simp [colCost, headKind, gapScore]
    | cons d rest2 =>
      obtain ⟨z, rfl⟩ := hall d (by simp)
      rw [scoreRev, ih (fun c hc => hall c (by simp [hc])) (by simp)]
      show (if some (Col.hor z).kind = some St.h then cfg.data_gap_extend
          else cfg.data_gap_open) + gapScore cfg ((Col.hor z :: rest2).length - 1)
        = gapScore cfg ((Col.hor y :: Col.hor z :: rest2).length - 1)
      simp only [Col.kind, if_pos rfl, gapScore, List.length_cons,
        Nat.add_sub_cancel]
      push_cast
      ring

theorem scoreRev_all_ver (cfg : Config) :
    ∀ l : List Col, (∀ c ∈ l, ∃ x, c = Col.ver x) → l ≠ [] →
      scoreRev cfg l = gapScore cfg (l.length - 1) := by
  intro l
  induction l with
  | nil => intro _ hne; exact absurd rfl hne
  | cons c rest ih =>
    intro hall _
    obtain ⟨x, rfl⟩ := hall c (List.mem_cons_self _ _)
    cases rest with
    | nil =>
      show colCost cfg (headKind []) (Col.ver x) + 0 = gapScore cfg 0
      simp [colCost, headKind, gapScore]
    | cons d rest2 =>
      obtain ⟨z, rfl⟩ := hall d (by simp)
      rw [scoreRev, ih (fun c hc => hall c (by simp [hc])) (by simp)]
      show (if some (Col.ver z).kind = some St.v then cfg.data_gap_extend
          else cfg.data_gap_open) + gapScore cfg ((Col.ver z :: rest2).length - 1)
        = gapScore cfg ((Col.ver x :: Col.ver z :: rest2).length - 1)
      simp only [Col.kind, if_pos rfl, gapScore, List.length_cons,
        Nat.add_sub_cancel]
      push_cast
      ring

theorem score_all_hor (cfg : Config) (aln : List Col)
    (h : ∀ c ∈ aln, ∃ y, c = Col.hor y) (hne : aln ≠ []) :
    score cfg aln = gapScore cfg (aln.length - 1) := by
  rw [score, scoreRev_all_hor cfg aln.reverse
    (fun c hc => h c (List.mem_reverse.mp hc))
    (fun hrev => hne (List.reverse_eq_nil_iff.mp hrev)), List.length_reverse]

theorem score_all_ver (cfg : Config) (aln : List Col)
    (h : ∀ c ∈ aln, ∃ x, c = Col.ver x) (hne : aln ≠ []) :
    score cfg aln = gapScore cfg (aln.length - 1) := by
  rw [score, scoreRev_all_ver cfg aln.reverse
    (fun c hc => h c (List.mem_reverse.mp hc))
    (fun hrev => hne (List.reverse_eq_nil_iff.mp hrev)), List.length_reverse]

theorem length_projB_all_hor :
    ∀ aln : List Col, (∀ c ∈ aln, ∃ y, c = Col.hor y) →
      (projB aln).length = aln.length := by
  intro aln
  induction aln with
  | nil => intro _; rfl
  | cons c rest ih =>
    intro hall
    obtain ⟨y, rfl⟩ := hall c (List.mem_cons_self _ _)
    show (projB (Col.hor y :: rest)).length = rest.length + 1
    have : projB (Col.hor y :: rest) = y :: projB rest := rfl
    rw [this, List.length_cons, ih (fun c hc => hall c (by simp [hc]))]

theorem length_projA_all_ver :
    ∀ aln : List Col, (∀ c ∈ aln, ∃ x, c = Col.ver x) →
      (projA aln).length = aln.length := by
  intro aln
  induction aln with
  | nil => intro _; rfl
  | cons c rest ih =>
    intro hall
    obtain ⟨x, rfl⟩ := hall c (List.mem_cons_self _ _)
    show (projA (Col.ver x :: rest)).length = rest.length + 1
    have : projA (Col.ver x :: rest) = x :: projA rest := rfl
    rw [this, List.length_cons, ih (fun c hc => hall c (by simp [hc]))]

/-- A consumed prefix ending in one more symbol splits. -/
theorem take_snoc_split (A : List Rna5) (u : List Rna5) (x : Rna5) (a : Nat)
    (ha : a ≤ A.length) (h : u ++ [x] = A.take a) :
    ∃ a', a = a' + 1 ∧ a' < A.length ∧ u = A.take a' ∧ x = A.getD a' Rna5.N := by
  have hlen : u.length + 1 = a := by
    have := congrArg List.length h
    simp only [List.length_append, List.length_take, List.length_cons,
      List.length_nil] at this
    omega
  refine ⟨u.length, hlen.symm, by omega, ?_, ?_⟩
  · have h2 : A.take (u.length + 1) = A.take u.length ++ [A.getD u.length Rna5.N] := by
      rw [List.take_succ, List.getElem?_eq_getElem (by omega),
        List.getD_eq_getElem A Rna5.N (by omega)]
      rfl
    rw [← hlen] at h
    rw [h2] at h
    exact (List.append_inj' h rfl).1
  · have h2 : A.take (u.length + 1) = A.take u.length ++ [A.getD u.length Rna5.N] := by
      rw [List.take_succ, List.getElem?_eq_getElem (by omega),
        List.getD_eq_getElem A Rna5.N (by omega)]
      rfl
    rw [← hlen] at h
    rw [h2] at h
    have := (List.append_inj' h rfl).2
    exact (List.cons_eq_cons.mp this).1

/-! ## Completeness: every alignment score is below its DP table entry -/

theorem score_le_stTable (cfg : Config) (A B : List Rna5) :
    ∀ aln (a b : Nat), a ≤ A.length → b ≤ B.length → SpellsPre A B a b aln →
      score cfg aln ≤ stTable (gotoh cfg A B a b) (lastKind aln) := by
  intro aln
  induction aln using List.reverseRecOn with
  | nil =>
    intro a b ha hb hsp
    obtain ⟨hA, hB⟩ := hsp
    have ha0 : a = 0 := by
      have := congrArg List.length hA
      simp only [projA, List.flatMap_nil, List.length_nil, List.length_take] at this
      omega
    have hb0 : b = 0 := by
      have := congrArg List.length hB
      simp only [projB, List.flatMap_nil, List.length_nil, List.length_take] at this
      omega
    subst ha0; subst hb0
    show score cfg [] ≤ (gotoh cfg A B 0 0).m
    rw [score_nil, gotoh_zero_zero]
  | append_singleton l c ih =>
    intro a b ha hb hsp
    obtain ⟨hA, hB⟩ := hsp
    rw [projA_append] at hA
    rw [projB_append] at hB
    cases c with
    | mat x y =>
      have hA' : projA l ++ [x] = A.take a := by
        simpa only [projA, List.flatMap_cons, List.flatMap_nil, colA,
          List.append_nil] using hA
      have hB' : projB l ++ [y] = B.take b := by
        simpa only [projB, List.flatMap_cons, List.flatMap_nil, colB,
          List.append_nil] using hB
      obtain ⟨a', rfl, haa, hu, hx⟩ := take_snoc_split A (projA l) x a ha hA'
      obtain ⟨b', rfl, hbb, hv, hy⟩ := take_snoc_split B (projB l) y b hb hB'
      have ihl := ih a' b' (le_of_lt haa) (le_of_lt hbb) ⟨hu, hv⟩
      have hm := stTable_le_max3 (gotoh cfg A B a' b') (lastKind l)
      rw [score_append_single, colCost_mat, lastKind_append_single]
      show score cfg l + cfg.sub x y ≤ (gotoh cfg A B (a' + 1) (b' + 1)).m
      rw [gotoh_succ_succ]
      show score cfg l + cfg.sub x y
        ≤ max3 (gotoh cfg A B a' b').m (gotoh cfg A B a' b').h
            (gotoh cfg A B a' b').v
          + cfg.sub (A.getD a' Rna5.N) (B.getD b' Rna5.N)
      rw [← hx, ← hy]
      omega
    | hor y =>
      have hA' : projA l = A.take a := by
        simpa only [projA, List.flatMap_cons, List.flatMap_nil, colA,
          List.append_nil] using hA
      have hB' : projB l ++ [y] = B.take b := by
        simpa only [projB, List.flatMap_cons, List.flatMap_nil, colB,
          List.append_nil] using hB
      obtain ⟨b', rfl, hbb, hv, hy⟩ := take_snoc_split B (projB l) y b hb hB'
      cases a with
      | zero =>
        rw [List.take_zero] at hA'
        have hall : ∀ c ∈ l ++ [Col.hor y], ∃ z, c = Col.hor z :=
          projA_eq_nil _ (by
            rw [projA_append, hA']
            simp [projA, colA])
        have hlen : (l ++ [Col.hor y]).length = b' + 1 := by
          have h1 := length_projB_all_hor _ hall
          rw [projB_append] at h1
          have h2 : projB [Col.hor y] = [y] := rfl
          rw [h2, hv] at h1
          simp only [List.length_append, List.length_take, List.length_cons,
            List.length_nil] at h1 ⊢
          omega
        rw [lastKind_append_single]
        show score cfg (l ++ [Col.hor y]) ≤ (gotoh cfg A B 0 (b' + 1)).h
        rw [score_all_hor cfg _ hall (by simp), hlen, gotoh_zero_succ]
        simp
      | succ a'' =>
        rw [score_append_single, lastKind_append_single]
        show score cfg l + colCost cfg (lastKind l) (Col.hor y)
          ≤ (gotoh cfg A B (a'' + 1) (b' + 1)).h
        rw [gotoh_succ_succ]
        show score cfg l + colCost cfg (lastKind l) (Col.hor y)
          ≤ max3 ((gotoh cfg A B (a'' + 1) b').m + cfg.data_gap_open)
              ((gotoh cfg A B (a'' + 1) b').h + cfg.data_gap_extend)
              ((gotoh cfg A B (a'' + 1) b').v + cfg.data_gap_open)
        rcases hlk : lastKind l with _ | k
        · rw [lastKind_eq_none_iff] at hlk
          subst hlk
          have := congrArg List.length hA'
          simp only [projA, List.flatMap_nil, List.length_nil,
            List.length_take] at this
          omega
        · have ihl := ih (a'' + 1) b' ha (le_of_lt hbb) ⟨hA', hv⟩
          rw [hlk] at ihl
          cases k with
          | m =>
            have hc : colCost cfg (some St.m) (Col.hor y) = cfg.data_gap_open := rfl
            have h3 := le_max3_left ((gotoh cfg A B (a'' + 1) b').m + cfg.data_gap_open)
              ((gotoh cfg A B (a'' + 1) b').h + cfg.data_gap_extend)
              ((gotoh cfg A B (a'' + 1) b').v + cfg.data_gap_open)
            rw [hc]
            have ihl' : score cfg l ≤ (gotoh cfg A B (a'' + 1) b').m := ihl
            omega
          | h =>
            have hc : colCost cfg (some St.h) (Col.hor y) = cfg.data_gap_extend := rfl
            have h3 := le_max3_mid ((gotoh cfg A B (a'' + 1) b').m + cfg.data_gap_open)
              ((gotoh cfg A B (a'' + 1) b').h + cfg.data_gap_extend)
              ((gotoh cfg A B (a'' + 1) b').v + cfg.data_gap_open)
            rw [hc]
            have ihl' : score cfg l ≤ (gotoh cfg A B (a'' + 1) b').h := ihl
            omega
          | v =>
            have hc : colCost cfg (some St.v) (Col.hor y) = cfg.data_gap_open := rfl
            have h3 := le_max3_right ((gotoh cfg A B (a'' + 1) b').m + cfg.data_gap_open)
              ((gotoh cfg A B (a'' + 1) b').h + cfg.data_gap_extend)
              ((gotoh cfg A B (a'' + 1) b').v + cfg.data_gap_open)
            rw [hc]
            have ihl' : score cfg l ≤ (gotoh cfg A B (a'' + 1) b').v := ihl
            omega
    | ver x =>
      have hA' : projA l ++ [x] = A.take a := by
        simpa only [projA, List.flatMap_cons, List.flatMap_nil, colA,
          List.append_nil] using hA
      have hB' : projB l = B.take b := by
        simpa only [projB, List.flatMap_cons, List.flatMap_nil, colB,
          List.append_nil] using hB
      obtain ⟨a', rfl, haa, hu, hx⟩ := take_snoc_split A (projA l) x a ha hA'
      cases b with
      | zero =>
        rw [List.take_zero] at hB'
        have hall : ∀ c ∈ l ++ [Col.ver x], ∃ z, c = Col.ver z :=
          projB_eq_nil _ (by
            rw [projB_append, hB']
            simp [projB, colB])
        have hlen : (l ++ [Col.ver x]).length = a' + 1 := by
          have h1 := length_projA_all_ver _ hall
          rw [projA_append] at h1
          have h2 : projA [Col.ver x] = [x] := rfl
          rw [h2, hu] at h1
          simp only [List.length_append, List.length_take, List.length_cons,
            List.length_nil] at h1 ⊢
          omega
        rw [lastKind_append_single]
        show score cfg (l ++ [Col.ver x]) ≤ (gotoh cfg A B (a' + 1) 0).v
        rw [score_all_ver cfg _ hall (by simp), hlen, gotoh_succ_zero]
        simp
      | succ b'' =>
        rw [score_append_single, lastKind_append_single]
        show score cfg l + colCost cfg (lastKind l) (Col.ver x)
          ≤ (gotoh cfg A B (a' + 1) (b'' + 1)).v
        rw [gotoh_succ_succ]
        show score cfg l + colCost cfg (lastKind l) (Col.ver x)
          ≤ max3 ((gotoh cfg A B a' (b'' + 1)).m + cfg.data_gap_open)
              ((gotoh cfg A B a' (b'' + 1)).h + cfg.data_gap_open)
              ((gotoh cfg A B a' (b'' + 1)).v + cfg.data_gap_extend)
        rcases hlk : lastKind l with _ | k
        · rw [lastKind_eq_none_iff] at hlk
          subst hlk
          have := congrArg List.length hB'
          simp only [projB, List.flatMap_nil, List.length_nil,
            List.length_take] at this
          omega
        · have ihl := ih a' (b'' + 1) (le_of_lt haa) hb ⟨hu, hB'⟩
          rw [hlk] at ihl
          cases k with
          | m =>
            have hc : colCost cfg (some St.m) (Col.ver x) = cfg.data_gap_open := rfl
            have h3 := le_max3_left ((gotoh cfg A B a' (b'' + 1)).m + cfg.data_gap_open)
              ((gotoh cfg A B a' (b'' + 1)).h + cfg.data_gap_open)
              ((gotoh cfg A B a' (b'' + 1)).v + cfg.data_gap_extend)
            rw [hc]
            have ihl' : score cfg l ≤ (gotoh cfg A B a' (b'' + 1)).m := ihl
            omega
          | h =>
            have hc : colCost cfg (some St.h) (Col.ver x) = cfg.data_gap_open := rfl
            have h3 := le_max3_mid ((gotoh cfg A B a' (b'' + 1)).m + cfg.data_gap_open)
              ((gotoh cfg A B a' (b'' + 1)).h + cfg.data_gap_open)
              ((gotoh cfg A B a' (b'' + 1)).v + cfg.data_gap_extend)
            rw [hc]
            have ihl' : score cfg l ≤ (gotoh cfg A B a' (b'' + 1)).h := ihl
            omega
          | v =>
            have hc : colCost cfg (some St.v) (Col.ver x) = cfg.data_gap_extend := rfl
            have h3 := le_max3_right ((gotoh cfg A B a' (b'' + 1)).m + cfg.data_gap_open)
              ((gotoh cfg A B a' (b'' + 1)).h + cfg.data_gap_open)
              ((gotoh cfg A B a' (b'' + 1)).v + cfg.data_gap_extend)
            rw [hc]
            have ihl' : score cfg l ≤ (gotoh cfg A B a' (b'' + 1)).v := ihl
            omega

/-- Completeness: the DP prefix score dominates every alignment of the
prefixes. -/
theorem score_le_getPrefixScore (cfg : Config) (A B : List Rna5)
    (aln : List Col) (a b : Nat) (ha : a ≤ A.length) (hb : b ≤ B.length)
    (hsp : SpellsPre A B a b aln) :
    score cfg aln ≤ getPrefixScore cfg A B a b :=
  le_trans (score_le_stTable cfg A B aln a b ha hb hsp)
    (stTable_le_max3 _ _)

/-! ## C1: the edge set over-approximates every near-optimal alignment -/

/-- C1: Over-approximation guarantee.  For any full alignment whose score is
within `suboptimalMargin` of the optimum, every match/mismatch column of
that alignment — pairing positions `(a, b)` — has its edge set by
`generateEdges`; the edge set is a superset of the edges of every alignment
within the margin. -/
theorem edge_filter_superset (cfg : Config) (A B : List Rna5)
    (suboptimalDiff : Int) (edges0 : Nat → Bool) (factor2int : ℚ)
    (hAne : A ≠ []) (hBne : B ≠ [])
    (hsym : ∀ x y, cfg.sub x y = cfg.sub y x) (hmargin : 0 ≤ suboptimalDiff)
    (aln : List Col) (hfull : Spells A B aln)
    (hscore : getOptimalScore cfg A B - suboptimalDiff ≤ score cfg aln)
    (l : List Col) (x y : Rna5) (r : List Col)
    (hsplit : aln = l ++ Col.mat x y :: r)
    (a b : Nat) (ha : (projA l).length = a) (hb : (projB l).length = b) :
    (generateEdges cfg A B suboptimalDiff edges0 factor2int).edges
      (B.length * a + b) = true := by
  subst hsplit
  obtain ⟨hpa, hpb⟩ := hfull
  rw [projA_append] at hpa
  rw [projB_append] at hpb
  have hpa' : projA l ++ x :: projA r = A := by
    simpa only [projA, List.flatMap_cons, colA, List.cons_append,
      List.nil_append, List.singleton_append] using hpa
  have hpb' : projB l ++ y :: projB r = B := by
    simpa only [projB, List.flatMap_cons, colB, List.cons_append,
      List.nil_append, List.singleton_append] using hpb
  have hlenA : A.length = a + 1 + (projA r).length := by
    rw [← hpa']
    simp only [List.length_append, List.length_cons, ha]
    omega
  have hlenB : B.length = b + 1 + (projB r).length := by
    rw [← hpb']
    simp only [List.length_append, List.length_cons, hb]
    omega
  have htakeA : A.take (a + 1) = projA l ++ [x] := by
    rw [← hpa', List.take_append_eq_append_take,
      List.take_of_length_le (by omega)]
    congr 1
    rw [show a + 1 - (projA l).length = 1 by omega]
    rfl
  have htakeB : B.take (b + 1) = projB l ++ [y] := by
    rw [← hpb', List.take_append_eq_append_take,
      List.take_of_length_le (by omega)]
    congr 1
    rw [show b + 1 - (projB l).length = 1 by omega]
    rfl
  obtain ⟨a2, heqa, ha2, hul, hx⟩ :=
    take_snoc_split A (projA l) x (a + 1) (by omega) htakeA.symm
  obtain ⟨b2, heqb, hb2, hvl, hy⟩ :=
    take_snoc_split B (projB l) y (b + 1) (by omega) htakeB.symm
  have ha2' : a2 = a := by omega
  have hb2' : b2 = b := by omega
  rw [ha2'] at ha2 hul hx
  rw [hb2'] at hb2 hvl hy
  have hdropA : projA r = A.drop (a + 1) := by
    rw [← hpa', show projA l ++ x :: projA r = (projA l ++ [x]) ++ projA r by
      simp]
    rw [List.drop_left' (by simp [ha])]
  have hdropB : projB r = B.drop (b + 1) := by
    rw [← hpb', show projB l ++ y :: projB r = (projB l ++ [y]) ++ projB r by
      simp]
    rw [List.drop_left' (by simp [hb])]
  have hraspell : SpellsPre A.reverse B.reverse
      (A.length - a - 1) (B.length - b - 1) r.reverse := by
    constructor
    · rw [projA_reverse, hdropA, List.reverse_drop]
      congr 1
    · rw [projB_reverse, hdropB, List.reverse_drop]
      congr 1
  have hscoreL : score cfg l ≤ getPrefixScore cfg A B a b :=
    score_le_getPrefixScore cfg A B l a b (by omega) (by omega) ⟨hul, hvl⟩
  have hscoreR : score cfg r ≤ getPrefixScore cfg A.reverse B.reverse
      (A.length - a - 1) (B.length - b - 1) := by
    rw [← score_reverse]
    exact score_le_getPrefixScore cfg A.reverse B.reverse r.reverse _ _
      (by rw [List.length_reverse]; omega) (by rw [List.length_reverse]; omega)
      hraspell
  have hsplitScore := score_split_mat cfg l x y r
  rw [generateEdges_edges_iff]
  refine Or.inr ⟨a, by omega, b, by omega, rfl, ?_⟩
  rw [edgeCond, decide_eq_true_eq, ← hx, ← hy]
  omega

/-! ## Score lower bounds and sentinel arithmetic -/

theorem scoreRev_lower (cfg : Config) (S : Int)
    (hsub : ∀ x y, -S ≤ cfg.sub x y)
    (hgo : -S ≤ cfg.data_gap_open) (hge : -S ≤ cfg.data_gap_extend) :
    ∀ l : List Col, -((l.length : Int) * S) ≤ scoreRev cfg l := by
  intro l
  induction l with
  | nil => simp [scoreRev]
  | cons c rest ih =>
    have hc : -S ≤ colCost cfg (headKind rest) c := by
      cases c with
      | mat x y => exact hsub x y
      | hor z =>
        show -S ≤ if headKind rest = some St.h then cfg.data_gap_extend
          else cfg.data_gap_open
        split
        · exact hge
        · exact hgo
      | ver z =>
        show -S ≤ if headKind rest = some St.v then cfg.data_gap_extend
          else cfg.data_gap_open
        split
        · exact hge
        · exact hgo
    rw [scoreRev]
    have hexp : -((((c :: rest).length : Nat) : Int) * S)
        = -(((rest.length : Nat) : Int) * S) - S := by
      push_cast [List.length_cons]
      ring
    rw [hexp]
    omega

theorem score_lower (cfg : Config) (S : Int)
    (hsub : ∀ x y, -S ≤ cfg.sub x y)
    (hgo : -S ≤ cfg.data_gap_open) (hge : -S ≤ cfg.data_gap_extend)
    (aln : List Col) : -((aln.length : Int) * S) ≤ score cfg aln := by
  rw [score]
  have := scoreRev_lower cfg S hsub hgo hge aln.reverse
  rwa [List.length_reverse] at this

theorem length_le_proj (aln : List Col) :
    aln.length ≤ (projA aln).length + (projB aln).length := by
  induction aln with
  | nil => simp [projA, projB]
  | cons c rest ih =>
    have hA : projA (c :: rest) = colA c ++ projA rest := rfl
    have hB : projB (c :: rest) = colB c ++ projB rest := rfl
    rw [List.length_cons, hA, hB, List.length_append, List.length_append]
    cases c <;> simp [colA, colB] <;> omega

/-- C7: Sentinel arithmetic.  If the sentinel magnitude exceeds the total
weight the scores can accumulate over the two sequences (as the spec
requires of `infinity`), then `-infinity` is strictly below the score of
every full alignment, and so are `-infinity + gap_open` and
`-infinity + gap_extend`: a sentinel plus a finite DP increment still
behaves as the sentinel and can never win a max against a real score. -/
theorem sentinel_arithmetic (cfg : Config) (A B : List Rna5) (S : Int)
    (hS : 0 ≤ S) (hsub : ∀ x y, -S ≤ cfg.sub x y)
    (hgo : -S ≤ cfg.data_gap_open ∧ cfg.data_gap_open ≤ S)
    (hge : -S ≤ cfg.data_gap_extend ∧ cfg.data_gap_extend ≤ S)
    (hinf : ((A.length + B.length : Nat) : Int) * S + S < cfg.inf)
    (aln : List Col) (hfull : Spells A B aln) :
    -cfg.inf < score cfg aln ∧
    -cfg.inf + cfg.data_gap_open < score cfg aln ∧
    -cfg.inf + cfg.data_gap_extend < score cfg aln := by
  have hlen : aln.length ≤ A.length + B.length := by
    have h1 := length_le_proj aln
    rw [hfull.1, hfull.2] at h1
    exact h1
  have hsc := score_lower cfg S hsub hgo.1 hge.1 aln
  have hmul : ((aln.length : Nat) : Int) * S ≤ ((A.length + B.length : Nat) : Int) * S := by
    apply mul_le_mul_of_nonneg_right _ hS
    exact_mod_cast hlen
  refine ⟨by omega, by omega, by omega⟩

/-! ## C10: the Match table is never the sentinel -/

theorem matM_lower (cfg : Config) (A B : List Rna5) (S : Int)
    (hS : 0 ≤ S) (hsub : ∀ x y, -S ≤ cfg.sub x y)
    (hgo : -S ≤ cfg.data_gap_open) (hge : -S ≤ cfg.data_gap_extend) :
    ∀ a b : Nat, -(((a + b : Nat) : Int) * S) ≤ (gotoh cfg A B a b).m := by
  have hgap : ∀ k : Nat, -(((k + 1 : Nat) : Int) * S) ≤ gapScore cfg k := by
    intro k
    have h1 : -S * (k : Int) ≤ cfg.data_gap_extend * (k : Int) :=
      mul_le_mul_of_nonneg_right hge (by positivity)
    rw [gapScore]
    push_cast
    nlinarith
  intro a
  induction a with
  | zero =>
    intro b
    cases b with
    | zero => simp [gotoh_zero_zero]
    | succ b' =>
      rw [gotoh_zero_succ]
      show -(((0 + (b' + 1) : Nat) : Int) * S) ≤ gapScore cfg b'
      have := hgap b'
      push_cast at this ⊢
      linarith
  | succ a' ih =>
    intro b
    cases b with
    | zero =>
      rw [gotoh_succ_zero]
      show -(((a' + 1 + 0 : Nat) : Int) * S) ≤ gapScore cfg a'
      have := hgap a'
      push_cast at this ⊢
      linarith
    | succ b' =>
      rw [gotoh_succ_succ]
      show -(((a' + 1 + (b' + 1) : Nat) : Int) * S)
        ≤ max3 (gotoh cfg A B a' b').m (gotoh cfg A B a' b').h
            (gotoh cfg A B a' b').v
          + cfg.sub (A.getD a' Rna5.N) (B.getD b' Rna5.N)
      have h1 := ih b'
      have h2 := le_max3_left (gotoh cfg A B a' b').m (gotoh cfg A B a' b').h
        (gotoh cfg A B a' b').v
      have h3 := hsub (A.getD a' Rna5.N) (B.getD b' Rna5.N)
      push_cast at h1 ⊢
      nlinarith

/-- C10: In every constructed table, the Match entry of every in-range cell
is a finite score, bounded below independently of the sentinel, and (when
the sentinel magnitude exceeds the accumulated weight, as the spec requires)
strictly above `-infinity`; hence `getPrefixScore` and `getOptimalScore`
never return the sentinel. -/
theorem matM_never_sentinel (cfg : Config) (A B : List Rna5) (S : Int)
    (hS : 0 ≤ S) (hsub : ∀ x y, -S ≤ cfg.sub x y)
    (hgo : -S ≤ cfg.data_gap_open) (hge : -S ≤ cfg.data_gap_extend)
    (hinf : ((A.length + B.length : Nat) : Int) * S < cfg.inf)
    (a b : Nat) (ha : a ≤ A.length) (hb : b ≤ B.length) :
    -(((a + b : Nat) : Int) * S) ≤ (gotoh cfg A B a b).m ∧
    -cfg.inf < (gotoh cfg A B a b).m ∧
    -cfg.inf < getPrefixScore cfg A B a b ∧
    -cfg.inf < getOptimalScore cfg A B := by
  have key : ∀ a' b' : Nat, a' ≤ A.length → b' ≤ B.length →
      -cfg.inf < (gotoh cfg A B a' b').m := by
    intro a' b' ha' hb'
    have h1 := matM_lower cfg A B S hS hsub hgo hge a' b'
    have hmul : (((a' + b' : Nat) : Int)) * S
        ≤ ((A.length + B.length : Nat) : Int) * S := by
      apply mul_le_mul_of_nonneg_right _ hS
      exact_mod_cast by omega
    omega
  refine ⟨matM_lower cfg A B S hS hsub hgo hge a b, key a b ha hb, ?_, ?_⟩
  · have h2 := le_max3_left (gotoh cfg A B a b).m (gotoh cfg A B a b).h
      (gotoh cfg A B a b).v
    have := key a b ha hb
    rw [getPrefixScore]
    omega
  · have h2 := le_max3_left (gotoh cfg A B A.length B.length).m
      (gotoh cfg A B A.length B.length).h (gotoh cfg A B A.length B.length).v
    have := key A.length B.length le_rfl le_rfl
    rw [getOptimalScore, getPrefixScore]
    omega

/-- Witness for C1 at a concrete input. -/
theorem edge_filter_superset_witness :
    (getOptimalScore cfg8 [Rna5.A] [Rna5.A] - 0
      ≤ score cfg8 [Col.mat Rna5.A Rna5.A]) ∧
    (generateEdges cfg8 [Rna5.A] [Rna5.A] 0 (fun _ => false) 1).edges
      (List.length [Rna5.A] * 0 + 0) = true :=
  ⟨by decide,
    edge_filter_superset cfg8 [Rna5.A] [Rna5.A] 0 (fun _ => false) 1
      (by decide) (by decide) (by decide) (by decide)
      [Col.mat Rna5.A Rna5.A] ⟨rfl, rfl⟩ (by decide)
      [] Rna5.A Rna5.A [] rfl 0 0 rfl rfl⟩

/-- Witness for C7 at a concrete input. -/
theorem sentinel_arithmetic_witness :
    ((List.length [Rna5.A] + List.length [Rna5.A] : Nat) : Int) * 4 + 4
      < cfg8.inf ∧
    (-cfg8.inf < score cfg8 [Col.mat Rna5.A Rna5.A] ∧
     -cfg8.inf + cfg8.data_gap_open < score cfg8 [Col.mat Rna5.A Rna5.A] ∧
     -cfg8.inf + cfg8.data_gap_extend < score cfg8 [Col.mat Rna5.A Rna5.A]) :=
  ⟨by decide,
    sentinel_arithmetic cfg8 [Rna5.A] [Rna5.A] 4 (by decide) (by decide)
      ⟨by decide, by decide⟩ ⟨by decide, by decide⟩ (by decide)
      [Col.mat Rna5.A Rna5.A] ⟨rfl, rfl⟩⟩

/-- Witness for C10 at a concrete input. -/
theorem matM_never_sentinel_witness :
    ((List.length [Rna5.A] + List.length [Rna5.A] : Nat) : Int) * 4
      < cfg8.inf ∧
    (-(((1 + 1 : Nat) : Int) * 4) ≤ (gotoh cfg8 [Rna5.A] [Rna5.A] 1 1).m ∧
     -cfg8.inf < (gotoh cfg8 [Rna5.A] [Rna5.A] 1 1).m ∧
     -cfg8.inf < getPrefixScore cfg8 [Rna5.A] [Rna5.A] 1 1 ∧
     -cfg8.inf < getOptimalScore cfg8 [Rna5.A] [Rna5.A]) :=
  ⟨by decide,
    matM_never_sentinel cfg8 [Rna5.A] [Rna5.A] 4 (by decide) (by decide)
      (by decide) (by decide) (by decide) 1 1 (by decide) (by decide)⟩

/-! ## Soundness helpers -/

theorem cast_mul_le (k m : Nat) (S : Int) (hS : 0 ≤ S) (h : k ≤ m) :
    ((k : Nat) : Int) * S ≤ ((m : Nat) : Int) * S :=
  mul_le_mul_of_nonneg_right (by exact_mod_cast h) hS

/-- A value bounded below by the accumulable weight never loses to a
sentinel-valued candidate when the sentinel magnitude is large enough. -/
theorem sentinel_no_win (S inf w c1 c2 : Int) (k m : Nat)
    (hS : 0 ≤ S) (hk : k ≤ m)
    (hw : -(((k : Nat) : Int) * S) ≤ w)
    (hc1 : -S ≤ c1) (hc2 : c2 ≤ S)
    (hle : w + c1 ≤ -inf + c2)
    (hinf : ((m + 2 : Nat) : Int) * S < inf) : False := by
  have h1 := cast_mul_le k m S hS hk
  have h2 : ((m + 2 : Nat) : Int) * S = ((m : Nat) : Int) * S + 2 * S := by
    push_cast
    ring
  omega

theorem take_succ_getD (A : List Rna5) (a : Nat) (h : a < A.length) :
    A.take (a + 1) = A.take a ++ [A.getD a Rna5.N] := by
  rw [List.take_succ, List.getElem?_eq_getElem h,
    List.getD_eq_getElem A Rna5.N h]
  rfl

theorem projA_map_ver (l : List Rna5) : projA (l.map Col.ver) = l := by
  induction l with
  | nil => rfl
  | cons x t ih =>
    show x :: projA (t.map Col.ver) = x :: t
    rw [ih]

theorem projB_map_ver (l : List Rna5) : projB (l.map Col.ver) = [] := by
  induction l with
  | nil => rfl
  | cons x t ih =>
    show projB (t.map Col.ver) = []
    exact ih

theorem projA_map_hor (l : List Rna5) : projA (l.map Col.hor) = [] := by
  induction l with
  | nil => rfl
  | cons x t ih =>
    show projA (t.map Col.hor) = []
    exact ih

theorem projB_map_hor (l : List Rna5) : projB (l.map Col.hor) = l := by
  induction l with
  | nil => rfl
  | cons x t ih =>
    show x :: projB (t.map Col.hor) = x :: t
    rw [ih]

theorem lastKind_map_ver (l : List Rna5) (h : l ≠ []) :
    lastKind (l.map Col.ver) = some St.v := by
  rcases List.eq_nil_or_concat l with rfl | ⟨u, x, rfl⟩
  · exact absurd rfl h
  · rw [List.concat_eq_append, List.map_append]
    show lastKind (u.map Col.ver ++ [Col.ver x]) = some St.v
    rw [lastKind_append_single]
    rfl

theorem lastKind_map_hor (l : List Rna5) (h : l ≠ []) :
    lastKind (l.map Col.hor) = some St.h := by
  rcases List.eq_nil_or_concat l with rfl | ⟨u, x, rfl⟩
  · exact absurd rfl h
  · rw [List.concat_eq_append, List.map_append]
    show lastKind (u.map Col.hor ++ [Col.hor x]) = some St.h
    rw [lastKind_append_single]
    rfl

theorem colCost_hor_ne (cfg : Config) (k : Option St) (y : Rna5)
    (h : k ≠ some St.h) : colCost cfg k (Col.hor y) = cfg.data_gap_open := by
  show (if k = some St.h then cfg.data_gap_extend else cfg.data_gap_open) = _
  rw [if_neg h]

theorem colCost_hor_eq (cfg : Config) (y : Rna5) :
    colCost cfg (some St.h) (Col.hor y) = cfg.data_gap_extend := rfl

theorem colCost_ver_ne (cfg : Config) (k : Option St) (x : Rna5)
    (h : k ≠ some St.v) : colCost cfg k (Col.ver x) = cfg.data_gap_open := by
  show (if k = some St.v then cfg.data_gap_extend else cfg.data_gap_open) = _
  rw [if_neg h]

theorem colCost_ver_eq (cfg : Config) (x : Rna5) :
    colCost cfg (some St.v) (Col.ver x) = cfg.data_gap_extend := rfl

theorem spellsPre_snoc_mat {A B : List Rna5} {a b : Nat} {w : List Col}
    (h : SpellsPre A B a b w) (ha : a < A.length) (hb : b < B.length) :
    SpellsPre A B (a + 1) (b + 1)
      (w ++ [Col.mat (A.getD a Rna5.N) (B.getD b Rna5.N)]) := by
  obtain ⟨h1, h2⟩ := h
  constructor
  · rw [projA_append, h1, take_succ_getD A a ha]
    rfl
  · rw [projB_append, h2, take_succ_getD B b hb]
    rfl

theorem spellsPre_snoc_hor {A B : List Rna5} {a b : Nat} {w : List Col}
    (h : SpellsPre A B a b w) (hb : b < B.length) :
    SpellsPre A B a (b + 1) (w ++ [Col.hor (B.getD b Rna5.N)]) := by
  obtain ⟨h1, h2⟩ := h
  constructor
  · rw [projA_append, h1]
    simp [projA, colA]
  · rw [projB_append, h2, take_succ_getD B b hb]
    rfl

theorem spellsPre_snoc_ver {A B : List Rna5} {a b : Nat} {w : List Col}
    (h : SpellsPre A B a b w) (ha : a < A.length) :
    SpellsPre A B (a + 1) b (w ++ [Col.ver (A.getD a Rna5.N)]) := by
  obtain ⟨h1, h2⟩ := h
  constructor
  · rw [projA_append, h1, take_succ_getD A a ha]
    rfl
  · rw [projB_append, h2]
    simp [projB, colB]

theorem spellsPre_score_lb (cfg : Config) (A B : List Rna5) (S : Int)
    (hS : 0 ≤ S) (hsub : ∀ x y, -S ≤ cfg.sub x y)
    (hgo : -S ≤ cfg.data_gap_open) (hge : -S ≤ cfg.data_gap_extend)
    {a b : Nat} {aln : List Col} (hsp : SpellsPre A B a b aln) :
    -(((a + b : Nat) : Int) * S) ≤ score cfg aln := by
  have h1 := score_lower cfg S hsub hgo hge aln
  have hlen : aln.length ≤ a + b := by
    have h2 := length_le_proj aln
    rw [hsp.1, hsp.2] at h2
    simp only [List.length_take] at h2
    omega
  have hmul := cast_mul_le aln.length (a + b) S hS hlen
  omega

/-! ## Soundness: every DP table entry is attained by an alignment -/

theorem dp_sound (cfg : Config) (A B : List Rna5) (S : Int) (hS : 0 ≤ S)
    (hsub : ∀ x y, -S ≤ cfg.sub x y)
    (hgo1 : -S ≤ cfg.data_gap_open) (hgo2 : cfg.data_gap_open ≤ S)
    (hge1 : -S ≤ cfg.data_gap_extend) (hge2 : cfg.data_gap_extend ≤ S)
    (hinf : ((A.length + B.length + 2 : Nat) : Int) * S < cfg.inf) :
    ∀ n a b, a + b = n → a ≤ A.length → b ≤ B.length →
      (∃ aln, SpellsPre A B a b aln ∧
        score cfg aln = (gotoh cfg A B a b).m ∧
        (a = 0 ∨ lastKind aln ≠ some St.h) ∧
        (b = 0 ∨ lastKind aln ≠ some St.v)) ∧
      (1 ≤ b → ∃ aln, SpellsPre A B a b aln ∧
        score cfg aln = (gotoh cfg A B a b).h ∧ lastKind aln = some St.h) ∧
      (1 ≤ a → ∃ aln, SpellsPre A B a b aln ∧
        score cfg aln = (gotoh cfg A B a b).v ∧ lastKind aln = some St.v) := by
  intro n
  induction n using Nat.strong_induction_on with
  | _ n ih =>
  intro a b hn ha hb
  cases a with
  | zero =>
    cases b with
    | zero =>
      refine ⟨⟨[], ⟨rfl, rfl⟩, rfl, Or.inl rfl, Or.inl rfl⟩,
        fun hc => absurd hc (by decide), fun hc => absurd hc (by decide)⟩
    | succ b' =>
      have hlen : ((B.take (b' + 1)).map Col.hor).length = b' + 1 := by
        simp only [List.length_map, List.length_take]
        omega
      have hne : B.take (b' + 1) ≠ [] := by
        intro hc
        have := congrArg List.length hc
        simp only [List.length_take, List.length_nil] at this
        omega
      have hne2 : (B.take (b' + 1)).map Col.hor ≠ [] :=
        fun hc => hne (List.map_eq_nil_iff.mp hc)
      have hall : ∀ c ∈ (B.take (b' + 1)).map Col.hor, ∃ y, c = Col.hor y := by
        intro c hc
        obtain ⟨y, _, hy⟩ := List.mem_map.mp hc
        exact ⟨y, hy.symm⟩
      have hsp : SpellsPre A B 0 (b' + 1) ((B.take (b' + 1)).map Col.hor) := by
        constructor
        · rw [projA_map_hor]
          rfl
        · rw [projB_map_hor]
      have hsc : score cfg ((B.take (b' + 1)).map Col.hor) = gapScore cfg b' := by
        rw [score_all_hor cfg _ hall hne2, hlen]
        simp
      have hlk := lastKind_map_hor (B.take (b' + 1)) hne
      refine ⟨⟨(B.take (b' + 1)).map Col.hor, hsp, ?_, Or.inl rfl, ?_⟩,
        fun _ => ⟨(B.take (b' + 1)).map Col.hor, hsp, ?_, hlk⟩,
        fun hc => absurd hc (by decide)⟩
      · rw [hsc, gotoh_zero_succ]
      · exact Or.inr (by rw [hlk]; decide)
      · rw [hsc, gotoh_zero_succ]
  | succ a' =>
    cases b with
    | zero =>
      have hlen : ((A.take (a' + 1)).map Col.ver).length = a' + 1 := by
        simp only [List.length_map, List.length_take]
        omega
      have hne : A.take (a' + 1) ≠ [] := by
        intro hc
        have := congrArg List.length hc
        simp only [List.length_take, List.length_nil] at this
        omega
      have hne2 : (A.take (a' + 1)).map Col.ver ≠ [] :=
        fun hc => hne (List.map_eq_nil_iff.mp hc)
      have hall : ∀ c ∈ (A.take (a' + 1)).map Col.ver, ∃ x, c = Col.ver x := by
        intro c hc
        obtain ⟨x, _, hx⟩ := List.mem_map.mp hc
        exact ⟨x, hx.symm⟩
      have hsp : SpellsPre A B (a' + 1) 0 ((A.take (a' + 1)).map Col.ver) := by
        constructor
        · rw [projA_map_ver]
        · rw [projB_map_ver]
          rfl
      have hsc : score cfg ((A.take (a' + 1)).map Col.ver) = gapScore cfg a' := by
        rw [score_all_ver cfg _ hall hne2, hlen]
        simp
      have hlk := lastKind_map_ver (A.take (a' + 1)) hne
      refine ⟨⟨(A.take (a' + 1)).map Col.ver, hsp, ?_, ?_, Or.inl rfl⟩,
        fun hc => absurd hc (by decide),
        fun _ => ⟨(A.take (a' + 1)).map Col.ver, hsp, ?_, hlk⟩⟩
      · rw [hsc, gotoh_succ_zero]
      · exact Or.inr (by rw [hlk]; decide)
      · rw [hsc, gotoh_succ_zero]
    | succ b' =>
      have IHd := ih (a' + b') (by omega) a' b' rfl (by omega) (by omega)
      have IHl := ih (a' + 1 + b') (by omega) (a' + 1) b' rfl (by omega)
        (by omega)
      have IHu := ih (a' + (b' + 1)) (by omega) a' (b' + 1) rfl (by omega)
        (by omega)
      obtain ⟨⟨wdm, wdmsp, wdmsc, wdmc1, wdmc2⟩, IHdh, IHdv⟩ := IHd
      obtain ⟨⟨wlm, wlmsp, wlmsc, wlmc1, wlmc2⟩, IHlh, IHlv⟩ := IHl
      obtain ⟨⟨wum, wumsp, wumsc, wumc1, wumc2⟩, IHuh, IHuv⟩ := IHu
      have hbd : -(((a' + b' : Nat) : Int) * S) ≤ (gotoh cfg A B a' b').m := by
        rw [← wdmsc]
        exact spellsPre_score_lb cfg A B S hS hsub hgo1 hge1 wdmsp
      have hbl : -(((a' + 1 + b' : Nat) : Int) * S)
          ≤ (gotoh cfg A B (a' + 1) b').m := by
        rw [← wlmsc]
        exact spellsPre_score_lb cfg A B S hS hsub hgo1 hge1 wlmsp
      have hbu : -(((a' + (b' + 1) : Nat) : Int) * S)
          ≤ (gotoh cfg A B a' (b' + 1)).m := by
        rw [← wumsc]
        exact spellsPre_score_lb cfg A B S hS hsub hgo1 hge1 wumsp
      refine ⟨?_, fun _ => ?_, fun _ => ?_⟩
      · -- Match entry at (a'+1, b'+1)
        rcases max3_cases (gotoh cfg A B a' b').m (gotoh cfg A B a' b').h
            (gotoh cfg A B a' b').v with hmax | hmax | hmax
        · refine ⟨wdm ++ [Col.mat (A.getD a' Rna5.N) (B.getD b' Rna5.N)],
            spellsPre_snoc_mat wdmsp (by omega) (by omega), ?_, ?_, ?_⟩
          · rw [score_append_single, colCost_mat, wdmsc, gotoh_succ_succ]
            show (gotoh cfg A B a' b').m
                + cfg.sub (A.getD a' Rna5.N) (B.getD b' Rna5.N)
              = max3 (gotoh cfg A B a' b').m (gotoh cfg A B a' b').h
                  (gotoh cfg A B a' b').v
                + cfg.sub (A.getD a' Rna5.N) (B.getD b' Rna5.N)
            rw [hmax]
          · exact Or.inr (by rw [lastKind_append_single]; simp [Col.kind])
          · exact Or.inr (by rw [lastKind_append_single]; simp [Col.kind])
        · cases b' with
          | zero =>
            exfalso
            have hHd : (gotoh cfg A B a' 0).h = -cfg.inf := by
              cases a' with
              | zero => rfl
              | succ t => rfl
            have hle : (gotoh cfg A B a' 0).m + 0 ≤ -cfg.inf + 0 := by
              have := le_max3_left (gotoh cfg A B a' 0).m
                (gotoh cfg A B a' 0).h (gotoh cfg A B a' 0).v
              rw [hmax, hHd] at this
              omega
            exact sentinel_no_win S cfg.inf (gotoh cfg A B a' 0).m 0 0
              (a' + 0) (A.length + B.length) hS (by omega) hbd
              (by omega) (by omega) hle hinf
          | succ b'' =>
            obtain ⟨wdh, wdhsp, wdhsc, wdhlk⟩ := IHdh (by omega)
            refine ⟨wdh ++ [Col.mat (A.getD a' Rna5.N) (B.getD (b'' + 1) Rna5.N)],
              spellsPre_snoc_mat wdhsp (by omega) (by omega), ?_, ?_, ?_⟩
            · rw [score_append_single, colCost_mat, wdhsc, gotoh_succ_succ]
              show (gotoh cfg A B a' (b'' + 1)).h
                  + cfg.sub (A.getD a' Rna5.N) (B.getD (b'' + 1) Rna5.N)
                = max3 (gotoh cfg A B a' (b'' + 1)).m
                    (gotoh cfg A B a' (b'' + 1)).h
                    (gotoh cfg A B a' (b'' + 1)).v
                  + cfg.sub (A.getD a' Rna5.N) (B.getD (b'' + 1) Rna5.N)
              rw [hmax]
            · exact Or.inr (by rw [lastKind_append_single]; simp [Col.kind])
            · exact Or.inr (by rw [lastKind_append_single]; simp [Col.kind])
        · cases a' with
          | zero =>
            exfalso
            have hVd : (gotoh cfg A B 0 b').v = -cfg.inf := by
              cases b' with
              | zero => rfl
              | succ t => rfl
            have hle : (gotoh cfg A B 0 b').m + 0 ≤ -cfg.inf + 0 := by
              have := le_max3_left (gotoh cfg A B 0 b').m
                (gotoh cfg A B 0 b').h (gotoh cfg A B 0 b').v
              rw [hmax, hVd] at this
              omega
            exact sentinel_no_win S cfg.inf (gotoh cfg A B 0 b').m 0 0
              (0 + b') (A.length + B.length) hS (by omega) hbd
              (by omega) (by omega) hle hinf
          | succ a'' =>
            obtain ⟨wdv, wdvsp, wdvsc, wdvlk⟩ := IHdv (by omega)
            refine ⟨wdv ++ [Col.mat (A.getD (a'' + 1) Rna5.N) (B.getD b' Rna5.N)],
              spellsPre_snoc_mat wdvsp (by omega) (by omega), ?_, ?_, ?_⟩
            · rw [score_append_single, colCost_mat, wdvsc, gotoh_succ_succ]
              show (gotoh cfg A B (a'' + 1) b').v
                  + cfg.sub (A.getD (a'' + 1) Rna5.N) (B.getD b' Rna5.N)
                = max3 (gotoh cfg A B (a'' + 1) b').m
                    (gotoh cfg A B (a'' + 1) b').h
                    (gotoh cfg A B (a'' + 1) b').v
                  + cfg.sub (A.getD (a'' + 1) Rna5.N) (B.getD b' Rna5.N)
              rw [hmax]
            · exact Or.inr (by rw [lastKind_append_single]; simp [Col.kind])
            · exact Or.inr (by rw [lastKind_append_single]; simp [Col.kind])
      · -- HorizontalGap entry at (a'+1, b'+1)
        rcases max3_cases ((gotoh cfg A B (a' + 1) b').m + cfg.data_gap_open)
            ((gotoh cfg A B (a' + 1) b').h + cfg.data_gap_extend)
            ((gotoh cfg A B (a' + 1) b').v + cfg.data_gap_open)
          with hmax | hmax | hmax
        · have hlk : lastKind wlm ≠ some St.h := wlmc1.resolve_left (by omega)
          refine ⟨wlm ++ [Col.hor (B.getD b' Rna5.N)],
            spellsPre_snoc_hor wlmsp (by omega), ?_,
            lastKind_append_single _ _⟩
          rw [score_append_single, colCost_hor_ne cfg _ _ hlk, wlmsc,
            gotoh_succ_succ]
          show (gotoh cfg A B (a' + 1) b').m + cfg.data_gap_open
            = max3 ((gotoh cfg A B (a' + 1) b').m + cfg.data_gap_open)
                ((gotoh cfg A B (a' + 1) b').h + cfg.data_gap_extend)
                ((gotoh cfg A B (a' + 1) b').v + cfg.data_gap_open)
          rw [hmax]
        · cases b' with
          | zero =>
            exfalso
            have hHl : (gotoh cfg A B (a' + 1) 0).h = -cfg.inf := rfl
            have hle : (gotoh cfg A B (a' + 1) 0).m + cfg.data_gap_open
                ≤ -cfg.inf + cfg.data_gap_extend := by
              have := le_max3_left
                ((gotoh cfg A B (a' + 1) 0).m + cfg.data_gap_open)
                ((gotoh cfg A B (a' + 1) 0).h + cfg.data_gap_extend)
                ((gotoh cfg A B (a' + 1) 0).v + cfg.data_gap_open)
              rw [hmax, hHl] at this
              omega
            exact sentinel_no_win S cfg.inf (gotoh cfg A B (a' + 1) 0).m
              cfg.data_gap_open cfg.data_gap_extend (a' + 1 + 0)
              (A.length + B.length) hS (by omega) hbl hgo1 hge2 hle hinf
          | succ b'' =>
            obtain ⟨wlh, wlhsp, wlhsc, wlhlk⟩ := IHlh (by omega)
            refine ⟨wlh ++ [Col.hor (B.getD (b'' + 1) Rna5.N)],
              spellsPre_snoc_hor wlhsp (by omega), ?_,
              lastKind_append_single _ _⟩
            rw [score_append_single, wlhlk, colCost_hor_eq, wlhsc,
              gotoh_succ_succ]
            show (gotoh cfg A B (a' + 1) (b'' + 1)).h + cfg.data_gap_extend
              = max3 ((gotoh cfg A B (a' + 1) (b'' + 1)).m + cfg.data_gap_open)
                  ((gotoh cfg A B (a' + 1) (b'' + 1)).h + cfg.data_gap_extend)
                  ((gotoh cfg A B (a' + 1) (b'' + 1)).v + cfg.data_gap_open)
            rw [hmax]
        · obtain ⟨wlv, wlvsp, wlvsc, wlvlk⟩ := IHlv (by omega)
          have hlk : lastKind wlv ≠ some St.h := by
            rw [wlvlk]
            decide
          refine ⟨wlv ++ [Col.hor (B.getD b' Rna5.N)],
            spellsPre_snoc_hor wlvsp (by omega), ?_,
            lastKind_append_single _ _⟩
          rw [score_append_single, colCost_hor_ne cfg _ _ hlk, wlvsc,
            gotoh_succ_succ]
          show (gotoh cfg A B (a' + 1) b').v + cfg.data_gap_open
            = max3 ((gotoh cfg A B (a' + 1) b').m + cfg.data_gap_open)
                ((gotoh cfg A B (a' + 1) b').h + cfg.data_gap_extend)
                ((gotoh cfg A B (a' + 1) b').v + cfg.data_gap_open)
          rw [hmax]
      · -- VerticalGap entry at (a'+1, b'+1)
        rcases max3_cases ((gotoh cfg A B a' (b' + 1)).m + cfg.data_gap_open)
            ((gotoh cfg A B a' (b' + 1)).h + cfg.data_gap_open)
            ((gotoh cfg A B a' (b' + 1)).v + cfg.data_gap_extend)
          with hmax | hmax | hmax
        · have hlk : lastKind wum ≠ some St.v := wumc2.resolve_left (by omega)
          refine ⟨wum ++ [Col.ver (A.getD a' Rna5.N)],
            spellsPre_snoc_ver wumsp (by omega), ?_,
            lastKind_append_single _ _⟩
          rw [score_append_single, colCost_ver_ne cfg _ _ hlk, wumsc,
            gotoh_succ_succ]
          show (gotoh cfg A B a' (b' + 1)).m + cfg.data_gap_open
            = max3 ((gotoh cfg A B a' (b' + 1)).m + cfg.data_gap_open)
                ((gotoh cfg A B a' (b' + 1)).h + cfg.data_gap_open)
                ((gotoh cfg A B a' (b' + 1)).v + cfg.data_gap_extend)
          rw [hmax]
        · obtain ⟨wuh, wuhsp, wuhsc, wuhlk⟩ := IHuh (by omega)
          have hlk : lastKind wuh ≠ some St.v := by
            rw [wuhlk]
            decide
          refine ⟨wuh ++ [Col.ver (A.getD a' Rna5.N)],
            spellsPre_snoc_ver wuhsp (by omega), ?_,
            lastKind_append_single _ _⟩
          rw [score_append_single, colCost_ver_ne cfg _ _ hlk, wuhsc,
            gotoh_succ_succ]
          show (gotoh cfg A B a' (b' + 1)).h + cfg.data_gap_open
            = max3 ((gotoh cfg A B a' (b' + 1)).m + cfg.data_gap_open)
                ((gotoh cfg A B a' (b' + 1)).h + cfg.data_gap_open)
                ((gotoh cfg A B a' (b' + 1)).v + cfg.data_gap_extend)
          rw [hmax]
        · cases a' with
          | zero =>
            exfalso
            have hVu : (gotoh cfg A B 0 (b' + 1)).v = -cfg.inf := rfl
            have hle : (gotoh cfg A B 0 (b' + 1)).m + cfg.data_gap_open
                ≤ -cfg.inf + cfg.data_gap_extend := by
              have := le_max3_left
                ((gotoh cfg A B 0 (b' + 1)).m + cfg.data_gap_open)
                ((gotoh cfg A B 0 (b' + 1)).h + cfg.data_gap_open)
                ((gotoh cfg A B 0 (b' + 1)).v + cfg.data_gap_extend)
              rw [hmax, hVu] at this
              omega
            exact sentinel_no_win S cfg.inf (gotoh cfg A B 0 (b' + 1)).m
              cfg.data_gap_open cfg.data_gap_extend (0 + (b' + 1))
              (A.length + B.length) hS (by omega) hbu hgo1 hge2 hle hinf
          | succ a'' =>
            obtain ⟨wuv, wuvsp, wuvsc, wuvlk⟩ := IHuv (by omega)
            refine ⟨wuv ++ [Col.ver (A.getD (a'' + 1) Rna5.N)],
              spellsPre_snoc_ver wuvsp (by omega), ?_,
              lastKind_append_single _ _⟩
            rw [score_append_single, wuvlk, colCost_ver_eq, wuvsc,
              gotoh_succ_succ]
            show (gotoh cfg A B (a'' + 1) (b' + 1)).v + cfg.data_gap_extend
              = max3 ((gotoh cfg A B (a'' + 1) (b' + 1)).m + cfg.data_gap_open)
                  ((gotoh cfg A B (a'' + 1) (b' + 1)).h + cfg.data_gap_open)
                  ((gotoh cfg A B (a'' + 1) (b' + 1)).v + cfg.data_gap_extend)
            rw [hmax]

/-- C4: Prefix-score semantics.  `getPrefixScore(posA, posB)` is the maximum
of the three table entries at `(posA, posB)`, and — when the sentinel
magnitude exceeds the accumulable score weight, as the spec requires — it
is the greatest score of any affine-gap alignment of the prefixes
`A[0:posA]` and `B[0:posB]` (ending in any of the three states);
`getOptimalScore()` equals `getPrefixScore(lenA, lenB)`. -/
theorem prefix_score_semantics (cfg : Config) (A B : List Rna5) (S : Int)
    (hS : 0 ≤ S) (hsub : ∀ x y, -S ≤ cfg.sub x y)
    (hgo1 : -S ≤ cfg.data_gap_open) (hgo2 : cfg.data_gap_open ≤ S)
    (hge1 : -S ≤ cfg.data_gap_extend) (hge2 : cfg.data_gap_extend ≤ S)
    (hinf : ((A.length + B.length + 2 : Nat) : Int) * S < cfg.inf)
    (a b : Nat) (ha : a ≤ A.length) (hb : b ≤ B.length) :
    getPrefixScore cfg A B a b
      = max3 (gotoh cfg A B a b).m (gotoh cfg A B a b).h
          (gotoh cfg A B a b).v ∧
    IsGreatest {s : Int | ∃ aln, SpellsPre A B a b aln ∧ score cfg aln = s}
      (getPrefixScore cfg A B a b) ∧
    getOptimalScore cfg A B = getPrefixScore cfg A B A.length B.length := by
  refine ⟨rfl, ⟨?_, ?_⟩, rfl⟩
  · obtain ⟨⟨wm, wmsp, wmsc, _, _⟩, IHh, IHv⟩ :=
      dp_sound cfg A B S hS hsub hgo1 hgo2 hge1 hge2 hinf (a + b) a b rfl ha hb
    have hbm : -(((a + b : Nat) : Int) * S) ≤ (gotoh cfg A B a b).m := by
      rw [← wmsc]
      exact spellsPre_score_lb cfg A B S hS hsub hgo1 hge1 wmsp
    rcases max3_cases (gotoh cfg A B a b).m (gotoh cfg A B a b).h
        (gotoh cfg A B a b).v with hmax | hmax | hmax
    · exact ⟨wm, wmsp, by rw [wmsc, getPrefixScore, hmax]⟩
    · cases b with
      | zero =>
        exfalso
        have hH : (gotoh cfg A B a 0).h = -cfg.inf := by
          cases a with
          | zero => rfl
          | succ t => rfl
        have hle : (gotoh cfg A B a 0).m + 0 ≤ -cfg.inf + 0 := by
          have := le_max3_left (gotoh cfg A B a 0).m (gotoh cfg A B a 0).h
            (gotoh cfg A B a 0).v
          rw [hmax, hH] at this
          omega
        exact sentinel_no_win S cfg.inf (gotoh cfg A B a 0).m 0 0
          (a + 0) (A.length + B.length) hS (by omega) hbm (by omega)
          (by omega) hle hinf
      | succ b'' =>
        obtain ⟨wh, whsp, whsc, _⟩ := IHh (by omega)
        exact ⟨wh, whsp, by rw [whsc, getPrefixScore, hmax]⟩
    · cases a with
      | zero =>
        exfalso
        have hV : (gotoh cfg A B 0 b).v = -cfg.inf := by
          cases b with
          | zero => rfl
          | succ t => rfl
        have hle : (gotoh cfg A B 0 b).m + 0 ≤ -cfg.inf + 0 := by
          have := le_max3_left (gotoh cfg A B 0 b).m (gotoh cfg A B 0 b).h
            (gotoh cfg A B 0 b).v
          rw [hmax, hV] at this
          omega
        exact sentinel_no_win S cfg.inf (gotoh cfg A B 0 b).m 0 0
          (0 + b) (A.length + B.length) hS (by omega) hbm (by omega)
          (by omega) hle hinf
      | succ a'' =>
        obtain ⟨wv, wvsp, wvsc, _⟩ := IHv (by omega)
        exact ⟨wv, wvsp, by rw [wvsc, getPrefixScore, hmax]⟩
  · rintro s ⟨aln, hsp, rfl⟩
    exact score_le_getPrefixScore cfg A B aln a b ha hb hsp

/-- Witness for C4 at a concrete input. -/
theorem prefix_score_semantics_witness :
    ((List.length [Rna5.A] + List.length [Rna5.A] + 2 : Nat) : Int) * 4
      < cfg8.inf ∧
    score cfg8 [Col.mat Rna5.A Rna5.A]
      ≤ getPrefixScore cfg8 [Rna5.A] [Rna5.A] 1 1 :=
  ⟨by decide,
    (prefix_score_semantics cfg8 [Rna5.A] [Rna5.A] 4 (by decide) (by decide)
      (by decide) (by decide) (by decide) (by decide) (by decide) 1 1
      (by decide) (by decide)).2.1.2
      ⟨[Col.mat Rna5.A Rna5.A], ⟨rfl, rfl⟩, rfl⟩⟩

/-- C3: Reversal symmetry.  For a sentinel magnitude above the accumulable
weight (the spec's requirement on `infinity`), the optimal score on
`(seqA, seqB)` equals the optimal score on the reversed pair, so the
`SEQAN_ASSERT_EQ` in `generateEdges` never fails. -/
theorem reversal_symmetry (cfg : Config) (A B : List Rna5) (S : Int)
    (hS : 0 ≤ S) (hsub : ∀ x y, -S ≤ cfg.sub x y)
    (hsym : ∀ x y, cfg.sub x y = cfg.sub y x)
    (hgo1 : -S ≤ cfg.data_gap_open) (hgo2 : cfg.data_gap_open ≤ S)
    (hge1 : -S ≤ cfg.data_gap_extend) (hge2 : cfg.data_gap_extend ≤ S)
    (hinf : ((A.length + B.length + 2 : Nat) : Int) * S < cfg.inf) :
    getOptimalScore cfg A B = getOptimalScore cfg A.reverse B.reverse := by
  have hinfR : ((A.reverse.length + B.reverse.length + 2 : Nat) : Int) * S
      < cfg.inf := by
    rw [List.length_reverse, List.length_reverse]
    exact hinf
  obtain ⟨_, ⟨⟨wf, wfsp, wfsc⟩, hFub⟩, _⟩ :=
    prefix_score_semantics cfg A B S hS hsub hgo1 hgo2 hge1 hge2 hinf
      A.length B.length le_rfl le_rfl
  obtain ⟨_, ⟨⟨wr, wrsp, wrsc⟩, hRub⟩, _⟩ :=
    prefix_score_semantics cfg A.reverse B.reverse S hS hsub hgo1 hgo2
      hge1 hge2 hinfR A.reverse.length B.reverse.length le_rfl le_rfl
  have hwfA : projA wf = A := by
    rw [wfsp.1, List.take_length]
  have hwfB : projB wf = B := by
    rw [wfsp.2, List.take_length]
  have hwrA : projA wr = A.reverse := by
    rw [wrsp.1, List.take_length]
  have hwrB : projB wr = B.reverse := by
    rw [wrsp.2, List.take_length]
  apply le_antisymm
  · have h1 : SpellsPre A.reverse B.reverse A.reverse.length B.reverse.length
        wf.reverse := by
      constructor
      · rw [projA_reverse, List.take_length, hwfA]
      · rw [projB_reverse, List.take_length, hwfB]
    have h2 : score cfg wf.reverse ≤ getPrefixScore cfg A.reverse B.reverse
        A.reverse.length B.reverse.length := hRub ⟨wf.reverse, h1, rfl⟩
    rw [score_reverse] at h2
    show getPrefixScore cfg A B A.length B.length ≤ _
    rw [← wfsc]
    exact h2
  · have h1 : SpellsPre A B A.length B.length wr.reverse := by
      constructor
      · rw [projA_reverse, List.take_length, hwrA, List.reverse_reverse]
      · rw [projB_reverse, List.take_length, hwrB, List.reverse_reverse]
    have h2 : score cfg wr.reverse ≤ getPrefixScore cfg A B
        A.length B.length := hFub ⟨wr.reverse, h1, rfl⟩
    rw [score_reverse] at h2
    show getPrefixScore cfg A.reverse B.reverse A.reverse.length
        B.reverse.length ≤ _
    rw [← wrsc]
    exact h2

/-- Witness for C3 at a concrete input. -/
theorem reversal_symmetry_witness :
    ((List.length [Rna5.A, Rna5.C] + List.length [Rna5.G] + 2 : Nat) : Int) * 4
      < cfg8.inf ∧
    getOptimalScore cfg8 [Rna5.A, Rna5.C] [Rna5.G]
      = getOptimalScore cfg8 [Rna5.A, Rna5.C].reverse [Rna5.G].reverse :=
  ⟨by decide,
    reversal_symmetry cfg8 [Rna5.A, Rna5.C] [Rna5.G] 4 (by decide) (by decide)
      (by decide) (by decide) (by decide) (by decide) (by decide) (by decide)⟩

end lara
